import Mathlib

/-!
Verification of the MathExpressions-Solver core (DragonTaki/MathExpressions-Solver).

This file shallowly embeds the constraint-derivation, candidate-search and
expression-evaluation code of the repository and proves/refutes the frozen
claims about it.

Modelling conventions:
  * C++ `std::string` is modelled as `List Char`.
  * C++ `double`/`long double` arithmetic on the values manipulated by the
    evaluator is modelled as exact arithmetic over `ℚ` (the evaluator only
    ever manipulates values produced from integer literals by `+ - * / ^`,
    and decimal literals such as `1e-9` are idealized as the exact rationals
    they denote).  The feasibility estimator, which genuinely computes with
    `log10`, is modelled over `ℝ`.
  * `std::unordered_map<char, Constraint>` is modelled as an association
    list `List (Char × Constraint)`; every observation made by the code
    (find, per-entry iteration for exists/forall/map) is order-insensitive,
    so the unspecified iteration order of the C++ container is harmless.
  * `std::unordered_set<int>` position sets are modelled as duplicate-free
    `List ℤ` built by insert-if-absent; the code only observes membership
    and size.
  * The repository contains several incompatible historical revisions of the
    `Constraint` record (`Constraint.h` v2.1 vs the fields used by
    `Constraint.cpp` and `CandidateGenerator.cpp`).  The embedding uses one
    flat record carrying the union of the fields; the accessor functions of
    `Constraint.h` v2.1 dispatch to the same physical fields, so this is
    observation-equivalent.
-/

/-- The feedback/expression symbol alphabet handled by `deriveConstraints`:
digits `'0'..'9'` followed by the operator symbols `"+-*/^="`. -/
def digitChars : List Char := ['0', '1', '2', '3', '4', '5', '6', '7', '8', '9']

/-- Operator/equality symbols, in the order of the C++ string literal `"+-*/^="`. -/
def opEqChars : List Char := ['+', '-', '*', '/', '^', '=']

/-- Per-symbol constraint record (union of the fields of `BaseConstraint`,
`DigitConstraint`, `OperatorConstraint` and `StructuralConstraint` from
`Constraint.h`).  Defaults are the C++ member initializers:
`minCount = 0`, `maxCount = 9999`, empty position sets, no conflict,
`usedCount = 0`. -/
structure Constraint where
  minCount : ℤ := 0
  maxCount : ℤ := 9999
  greenPos : List ℤ := []
  bannedPos : List ℤ := []
  hasConflict : Bool := false
  usedCount : ℤ := 0
  structHasConflict : Bool := false
  structConflictPositions : List ℤ := []
deriving Repr, DecidableEq

/-- A default-constructed `Constraint` (the C++ member initializers). -/
def defaultConstraint : Constraint := {}

/-- The constraints map `std::unordered_map<char, Constraint>` as an
association list. -/
abbrev CMap := List (Char × Constraint)

/-- Lookup in a constraints map (`unordered_map::find`). -/
def findC (m : CMap) (c : Char) : Option Constraint :=
  (m.find? (fun e => e.1 = c)).map (fun e => e.2)

/-- In-place modification through `operator[]`: update the first entry with
the given key, or append a default-constructed entry if the key is absent. -/
def modifyC (m : CMap) (c : Char) (f : Constraint → Constraint) : CMap :=
  match m with
  | [] => [(c, f defaultConstraint)]
  | (k, con) :: rest =>
    if k = c then (k, f con) :: rest else (k, con) :: modifyC rest c f

/-- Insert into an `unordered_set<int>` modelled as a duplicate-free list. -/
def insertPos (xs : List ℤ) (p : ℤ) : List ℤ :=
  if xs.contains p then xs else xs ++ [p]

/-! ## Expression evaluator (`ExpressionValidator.cpp`) -/

/-- Error kinds raised by `applyOp` / `evalExpr` (`std::runtime_error`
messages, turned into an explicit error type). -/
inductive EvalErr where
  | invalidChar
  | divisionByZero
  | nonIntegerDivision
  | fractionTooSmall
  | negativeExponent
  | overflowRisk
  | invalidOperator
  | malformedExpression
  | malformedRPN
deriving Repr, DecidableEq

/-- Operator precedence (`precedence` in `ExpressionValidator.cpp`):
`'^' > '*','/' > '+','-'`, everything else 0. -/
def precedence (op : Char) : ℕ :=
  if op = '^' then 3
  else if op = '*' ∨ op = '/' then 2
  else if op = '+' ∨ op = '-' then 1
  else 0

/-- All operators are left-associative except `'^'`. -/
def isLeftAssociative (op : Char) : Bool := op ≠ '^'

/-- Exact-fraction model of the C++ `double` values flowing through the
evaluator: an unreduced fraction `num / den`.  Every value the embedded
code constructs has a positive denominator (`evalExpr_den_pos` below).
C++ doubles are binary floating point; on the integer-valued data this
evaluator manipulates, the two semantics agree, and the fraction model
keeps every comparison exact. -/
structure Frac where
  num : ℤ
  den : ℤ
deriving Repr, DecidableEq

/-- An integer value. -/
def Frac.ofInt (n : ℤ) : Frac := ⟨n, 1⟩

/-- Fraction addition (no reduction). -/
def Frac.add (a b : Frac) : Frac := ⟨a.num * b.den + b.num * a.den, a.den * b.den⟩

/-- Fraction subtraction (no reduction). -/
def Frac.sub (a b : Frac) : Frac := ⟨a.num * b.den - b.num * a.den, a.den * b.den⟩

/-- Fraction multiplication (no reduction). -/
def Frac.mul (a b : Frac) : Frac := ⟨a.num * b.num, a.den * b.den⟩

/-- Fraction division, normalizing the sign into the numerator. -/
def Frac.div (a b : Frac) : Frac :=
  if b.num < 0 then ⟨-(a.num * b.den), -(a.den * b.num)⟩ else ⟨a.num * b.den, a.den * b.num⟩

/-- Absolute value (for the positive denominators the code maintains). -/
def Frac.abs (a : Frac) : Frac := ⟨|a.num|, a.den⟩

/-- Strict comparison by cross multiplication (valid for positive
denominators). -/
def Frac.ltb (a b : Frac) : Bool := decide (a.num * b.den < b.num * a.den)

/-- C++ `std::max` on values: `x < y ? y : x`. -/
def Frac.maxF (a b : Frac) : Frac := if Frac.ltb a b then b else a

/-- The repeated-multiplication loop of the `'^'` case. -/
def Frac.pow (a : Frac) (k : ℕ) : Frac := ⟨a.num ^ k, a.den ^ k⟩

/-- C++ `std::round` (half away from zero) of a fraction with positive
denominator. -/
def Frac.round (a : Frac) : ℤ :=
  if 0 ≤ a.num then (2 * a.num + a.den).fdiv (2 * a.den)
  else -((2 * (-a.num) + a.den).fdiv (2 * a.den))

/-- C++ integer-cast truncation (toward zero) of a fraction with positive
denominator. -/
def Frac.trunc (a : Frac) : ℤ :=
  if 0 ≤ a.num then a.num.fdiv a.den else -((-a.num).fdiv a.den)

/-- The rational value a fraction denotes. -/
def Frac.toRat (a : Frac) : ℚ := (a.num : ℚ) / (a.den : ℚ)

/-- The evaluator's epsilon `1e-9`, as an exact fraction. -/
def EPSILON : Frac := ⟨1, 10 ^ 9⟩

/-- C++ `std::round` on the value level: round half away from zero.  (For
nonnegative inputs this is Mathlib's `round`; for negative inputs its
mirror image.)  Used to state properties of the evaluator. -/
def cppRound (q : ℚ) : ℤ :=
  if 0 ≤ q then round q else -round (-q)

/-- Binary operator application with the safety checks of `applyOp`
(`ExpressionValidator.cpp` lines 77-117): division by (near-)zero,
integer-division exactness, too-small fractions, negative exponents and the
overflow guard `|base| > 1e6 ∨ exponent > 10` on `'^'`.  (The C++ `%` on
`long long` is truncated; it is zero exactly when the Lean `%` is, and the
quotient is only taken on exact divisions, where all conventions agree.) -/
def applyOp (a b : Frac) (op : Char) : Except EvalErr Frac :=
  if op = '+' then .ok (a.add b)
  else if op = '-' then .ok (a.sub b)
  else if op = '*' then .ok (a.mul b)
  else if op = '/' then
    if b.abs.ltb EPSILON then .error .divisionByZero
    else if (a.sub (Frac.ofInt a.round)).abs.ltb EPSILON ∧
        (b.sub (Frac.ofInt b.round)).abs.ltb EPSILON then
      if a.round % b.round ≠ 0 then .error .nonIntegerDivision
      else .ok (Frac.ofInt (a.round / b.round))
    else
      if (a.div b).abs.ltb ⟨1, 10 ^ 6⟩ then .error .fractionTooSmall
      else .ok (a.div b)
  else if op = '^' then
    if b.ltb (Frac.ofInt 0) then .error .negativeExponent
    else if (Frac.ofInt 1000000).ltb a.abs ∨ (Frac.ofInt 10).ltb b then .error .overflowRisk
    else .ok (a.pow b.trunc.toNat)
  else .error .invalidOperator

/-- State of the Shunting-Yard pass: output queue (tokens in emission
order), operator stack (top first), and the current multi-digit buffer. -/
structure SYState where
  output : List (List Char)
  stack : List Char
  num : List Char
deriving Repr

/-- Flush the multi-digit buffer to the output queue (`flushNum`). -/
def flushNum (st : SYState) : SYState :=
  if st.num = [] then st else { output := st.output ++ [st.num], stack := st.stack, num := [] }

/-- Pop operators to the output queue while the precedence/associativity
condition of the Shunting-Yard loop holds. -/
def popOps (ops : List Char) (c : Char) : List Char → List (List Char) → List Char × List (List Char)
  | [], out => ([], out)
  | top :: rest, out =>
    if ops.contains top ∧
        ((isLeftAssociative c ∧ precedence c ≤ precedence top) ∨
         (¬ isLeftAssociative c ∧ precedence c < precedence top)) then
      popOps ops c rest (out ++ [[top]])
    else (top :: rest, out)

/-- One character of the Shunting-Yard loop: digits accumulate in the number
buffer, allowed operators flush and pop, anything else raises
`invalidChar` ("Invalid character in expression"). -/
def syStep (ops : List Char) (st : SYState) (c : Char) : Except EvalErr SYState :=
  if c.isDigit then .ok { st with num := st.num ++ [c] }
  else if ops.contains c then
    let st1 := flushNum st
    let (stack', out') := popOps ops c st1.stack st1.output
    .ok { output := out', stack := c :: stack', num := [] }
  else .error .invalidChar

/-- Decimal digit string to a natural number (`stoll` on an all-digit
token). -/
def digitsToNat (s : List Char) : ℕ :=
  s.foldl (fun acc c => acc * 10 + (c.toNat - '0'.toNat)) 0

/-- One token of the RPN evaluation loop: numbers push, operators pop two
values (`b` on top, then `a`) and push `applyOp a b op`. -/
def rpnStep (stack : List Frac) (token : List Char) : Except EvalErr (List Frac) :=
  match token with
  | [] => .error .malformedRPN
  | t0 :: _ =>
    if t0.isDigit then .ok (Frac.ofInt (digitsToNat token : ℤ) :: stack)
    else
      match stack with
      | b :: a :: rest => (applyOp a b t0).map (fun v => v :: rest)
      | _ => .error .malformedExpression

/-- Evaluate an infix arithmetic string: Shunting-Yard conversion to RPN
followed by stack evaluation (`ExpressionValidator::evalExpr`).  The set of
allowed operator characters (`ValidOperatorsSet`, installed through
`setValidOps`) is an explicit parameter. -/
def evalExpr (ops : List Char) (s : List Char) : Except EvalErr Frac := do
  let st ← s.foldlM (syStep ops) ⟨[], [], []⟩
  let st := flushNum st
  let output := st.output ++ st.stack.map (fun c => [c])
  let final ← output.foldlM rpnStep []
  match final with
  | [v] => pure v
  | _ => .error .malformedRPN

/-- Exception-absorbing wrapper (`ExpressionValidator::safeEval`). -/
def safeEval (ops : List Char) (s : List Char) : Option Frac :=
  (evalExpr ops s).toOption

/-- Integrality test with tolerance (`ExpressionValidator::isInteger`).
The `std::isfinite` guard is vacuous in the exact-rational model. -/
def isInteger (value : Frac) (epsilon : Frac := EPSILON) : Bool :=
  (value.sub (Frac.ofInt value.round)).abs.ltb epsilon

/-- Split a string at its first `'='`: `some (lhs, rhs)` when a `'='`
exists (`find('=')`), `none` otherwise. -/
def eqSplit : List Char → Option (List Char × List Char)
  | [] => none
  | c :: rest =>
    if c = '=' then some ([], rest)
    else (eqSplit rest).map (fun p => (c :: p.1, p.2))

/-- Equation validity check (`ExpressionValidator::isValidExpression`):
exact length, exactly one `'='`, non-empty sides, both sides evaluate
without error to integral values, and relative equality within `1e-9`.
Evaluation errors are caught and yield `false`. -/
def isValidExpression (ops : List Char) (exprLine : List Char) (exprLength : ℕ) : Bool :=
  if exprLine.length ≠ exprLength then false
  else
    match eqSplit exprLine with
    | none => false
    | some (lhs, rhs) =>
      if rhs.contains '=' then false
      else if lhs = [] ∨ rhs = [] then false
      else
        match evalExpr ops lhs, evalExpr ops rhs with
        | .ok lhsResult, .ok rhsResult =>
          if ¬ (isInteger lhsResult ∧ isInteger rhsResult) then false
          else
            if ((lhsResult.sub rhsResult).abs.div
                ((Frac.ofInt 1).maxF ((lhsResult.abs).maxF rhsResult.abs))).ltb EPSILON
            then true else false
        | _, _ => false

/-! ## Constraint derivation (`Constraint.cpp`) -/

/-- Positional update for a single feedback color at a single position
(`updateConstraint(BaseConstraint&, char, int)` in `Constraint.cpp`):
green records the position in `greenPos`, yellow and red ban it. -/
def updateConstraintPos (color : Char) (pos : ℤ) (bc : Constraint) : Constraint :=
  if color = 'g' then { bc with greenPos := insertPos bc.greenPos pos }
  else if color = 'y' then { bc with bannedPos := insertPos bc.bannedPos pos }
  else if color = 'r' then { bc with bannedPos := insertPos bc.bannedPos pos }
  else bc

/-- One position of the per-guess loop of `processSingleGuess`: apply the
positional update to the constraint of the guessed character (digits and
the characters of `"+-*/^="` only), and record green operator positions in
`greenSymbolFlags`. -/
def posStep (ch col : Char) (pos : ℤ) (st : CMap × List Bool) : CMap × List Bool :=
  if ch.isDigit then
    (modifyC st.1 ch (updateConstraintPos col.toLower pos), st.2)
  else if opEqChars.contains ch then
    (modifyC st.1 ch (updateConstraintPos col.toLower pos),
     if col.toLower = 'g' then st.2.set pos.toNat true else st.2)
  else st

/-- The positional phase of `processSingleGuess`, walking the paired
characters of the guess and its feedback from position `pos`. -/
def posUpdates (pos : ℤ) : List (Char × Char) → CMap × List Bool → CMap × List Bool
  | [], st => st
  | (ch, col) :: rest, st => posUpdates (pos + 1) rest (posStep ch col pos st)

/-- Number of positions of a guess at which `ch` was guessed and received
the given feedback color (case-insensitively). -/
def colorCount (expression color : List Char) (which : Char) (ch : Char) : ℤ :=
  ((expression.zip color).filter (fun p => p.1 = ch ∧ p.2.toLower = which)).length

/-- The candidate upper bound a single guess imposes on one symbol
(`newMaxCandidate` in `processSingleGuess`): `g + y` when red feedback was
seen together with green/yellow, `0` when only red was seen, and the
no-information value `INF` when no red was seen. -/
def newMaxCand (g y r INF : ℤ) : ℤ :=
  if 0 < r then (if 0 < g + y then g + y else 0) else INF

/-- The count-merging step of `processSingleGuess` for one symbol:
candidate lower bound `g+y`, candidate upper bound `newMaxCand`, conflict
detection against previously exact bounds, then tighten (no conflict) or
widen (conflict). -/
def mergeCounts (con : Constraint) (g y r INF : ℤ) : Constraint :=
  if con.hasConflict = true ∨
      (con.minCount = con.maxCount ∧
        (con.minCount < g + y ∨ newMaxCand g y r INF < con.maxCount)) then
    { con with hasConflict := true,
               minCount := min (g + y) con.minCount,
               maxCount := max (newMaxCand g y r INF) con.maxCount }
  else
    { con with minCount := max con.minCount (g + y),
               maxCount := min con.maxCount (newMaxCand g y r INF) }

/-- Process one guess/feedback pair (`processSingleGuess`): positional
updates followed by the per-symbol count merge over every entry of the
map.  (The `globalConflict` flag of the C++ function only feeds logging
and is not modelled.) -/
def processSingleGuess (expression color : List Char) (st : CMap × List Bool) (INF : ℤ) :
    CMap × List Bool :=
  ((posUpdates 0 (expression.zip color) st).1.map (fun e =>
      (e.1, mergeCounts e.2 (colorCount expression color 'g' e.1)
                           (colorCount expression color 'y' e.1)
                           (colorCount expression color 'r' e.1) INF)),
   (posUpdates 0 (expression.zip color) st).2)

/-- The baseline map built at the top of `deriveConstraints`: a
default-constructed constraint for every digit and every character of
`"+-*/^="`. -/
def initialConstraintsMap : CMap :=
  digitChars.map (fun c => (c, defaultConstraint)) ++ opEqChars.map (fun c => (c, defaultConstraint))

/-- One iteration of the guess loop of `deriveConstraints`: pairs whose
expression or feedback length differs from the target length are skipped,
the others go through `processSingleGuess`. -/
def processPair (len : ℤ) (st : CMap × List Bool) (p : List Char × List Char) :
    CMap × List Bool :=
  if (p.1.length : ℤ) ≠ len then st
  else if (p.2.length : ℤ) ≠ len then st
  else processSingleGuess p.1 p.2 st len

/-- The structural pass of `deriveConstraints`: wherever two adjacent
positions both carry a green operator flag, mark the structural conflict
fields of every entry. -/
def structuralPass (m : CMap) (flags : List Bool) : CMap :=
  (List.range flags.length).foldl
    (fun acc pos =>
      if 1 ≤ pos ∧ flags.getD pos false ∧ flags.getD (pos - 1) false then
        acc.map (fun e =>
          (e.1, { e.2 with structHasConflict := true,
                           structConflictPositions :=
                             e.2.structConflictPositions ++ [(pos : ℤ) - 1, (pos : ℤ)] }))
      else acc) m

/-- The `'='` post-processing of `deriveConstraints`: if more than one
distinct green position was recorded for `'='`, clear its green positions
and flag the conflict; in all cases force `minCount = maxCount = 1`.
(The C++ code throws when `'='` is absent from the map; that situation is
unreachable from `deriveConstraints`, whose initial map contains `'='`,
and is modelled as the identity.) -/
def eqPostProcess (m : CMap) : CMap :=
  match findC m '=' with
  | none => m
  | some con =>
    if 1 < con.greenPos.length then
      modifyC m '=' (fun _ => { con with greenPos := [], hasConflict := true,
                                         minCount := 1, maxCount := 1 })
    else
      modifyC m '=' (fun _ => { con with minCount := 1, maxCount := 1 })

/-- Derive the per-symbol constraints from a whole guess history
(`deriveConstraints` in `Constraint.cpp`).  The history is passed as two
parallel vectors in C++; they are zipped here. -/
def deriveConstraints (expressions colors : List (List Char)) (len : ℤ) : CMap :=
  let st := (expressions.zip colors).foldl (processPair len)
    (initialConstraintsMap, List.replicate len.toNat false)
  eqPostProcess (structuralPass st.1 st.2)

/-! ## Candidate validity (`ConstraintUtils.cpp`) -/

/-- Global character admissibility (`ConstraintUtils::isCharAllowed`):
present in the map, not fully forbidden (`min = max = 0`), and below the
usage cap (`usedCount >= maxCount` rejects). -/
def isCharAllowed (exprChar : Char) (constraintsMap : CMap) : Bool :=
  match findC constraintsMap exprChar with
  | none => false
  | some con =>
    if con.minCount = 0 ∧ con.maxCount = 0 then false
    else if con.usedCount ≥ con.maxCount then false
    else true

/-- Positional admissibility (`ConstraintUtils::isCharAllowedAtPos`): the
position must not be banned for this character. -/
def isCharAllowedAtPos (exprChar : Char) (position : ℤ) (constraintsMap : CMap) : Bool :=
  match findC constraintsMap exprChar with
  | none => true
  | some con => ¬ con.bannedPos.contains position

/-- Green-position exclusivity (`ConstraintUtils::isCharSafeAtPosition`):
no other symbol may claim this position as green. -/
def isCharSafeAtPosition (exprChar : Char) (position : ℤ) (constraintsMap : CMap) : Bool :=
  constraintsMap.all (fun e => e.1 = exprChar ∨ ¬ e.2.greenPos.contains position)

/-- Token well-formedness (`ConstraintUtils::isTokenValid`): a digit token
is non-empty, never starts with `'0'` (a bare `"0"` included), and holds
digits only.  Operator tokens are not checked here. -/
inductive TokenType where
  | Digit
  | Operator
deriving Repr, DecidableEq

/-- A lexical token (`Expression::Token`). -/
structure Token where
  type : TokenType
  value : List Char
deriving Repr, DecidableEq

/-- See `ConstraintUtils::isTokenValid`. -/
def isTokenValid (token : Token) : Bool :=
  match token.type with
  | .Digit =>
    if token.value = [] then false
    else if token.value.headD ' ' = '0' then false
    else token.value.all Char.isDigit
  | .Operator => true

/-- Token-sequence syntax check after appending the last token
(`ConstraintUtils::isTokenSequenceValid`): no leading operator, no
consecutive operators, no stacked `'^'`, and a standalone `"0"` number is
never legal. -/
def isTokenSequenceValid (tokensList : List Token) : Bool :=
  match tokensList.getLast? with
  | none => false
  | some lastToken =>
    let previousToken := tokensList.getD (tokensList.length - 2) ⟨.Digit, []⟩
    let previous2Token := tokensList.getD (tokensList.length - 3) ⟨.Digit, []⟩
    if tokensList.length = 1 ∧ lastToken.type = .Operator then false
    else if lastToken.type = .Operator then
      if 2 ≤ tokensList.length ∧ previousToken.type = .Operator then false
      else if 3 ≤ tokensList.length ∧ previous2Token.value = ['^'] ∧ lastToken.value = ['^'] then false
      else true
    else
      if lastToken.value = ['0'] then false
      else true

/-- Whole-candidate validation (`ConstraintUtils::isCandidateValid`):
every character admissible globally, at its position, and green-exclusive;
then every symbol's appearance count within `[minCount, maxCount]`. -/
def isCandidateValid (exprLine : List Char) (constraintsMap : CMap) : Bool :=
  (List.range exprLine.length).all (fun i =>
      let exprChar := exprLine.getD i ' '
      isCharAllowed exprChar constraintsMap ∧
      isCharAllowedAtPos exprChar (i : ℤ) constraintsMap ∧
      isCharSafeAtPosition exprChar (i : ℤ) constraintsMap) ∧
  constraintsMap.all (fun e =>
      let appearCount : ℤ := (exprLine.count e.1 : ℤ)
      e.2.minCount ≤ appearCount ∧ appearCount ≤ e.2.maxCount)

/-- Candidate filtering (`ExpressionValidator::filterExpressions`). -/
def filterExpressions (candidatesList : List (List Char)) (constraintsMap : CMap) :
    List (List Char) :=
  candidatesList.filter (fun c => isCandidateValid c constraintsMap)

/-! ## Feedback matching (`CandidateGenerator::matchesFeedback`) -/

/-- Green phase of `matchesFeedback`: every green position must match
exactly, consuming one occurrence from the candidate's character pool. -/
def mfGreens : List (Char × Char × Char) → (Char → ℤ) → Option (Char → ℤ)
  | [], cnt => some cnt
  | (cand, expr, col) :: rest, cnt =>
    if col = 'g' then
      if cand ≠ expr then none
      else mfGreens rest (fun c => if c = expr then cnt c - 1 else cnt c)
    else mfGreens rest cnt

/-- Yellow phase of `matchesFeedback`: a yellow character must not match in
place and must still have an unconsumed occurrence, which it consumes. -/
def mfYellows : List (Char × Char × Char) → (Char → ℤ) → Option (Char → ℤ)
  | [], cnt => some cnt
  | (cand, expr, col) :: rest, cnt =>
    if col = 'y' then
      if cand = expr then none
      else if cnt expr ≤ 0 then none
      else mfYellows rest (fun c => if c = expr then cnt c - 1 else cnt c)
    else mfYellows rest cnt

/-- Red phase of `matchesFeedback`: no unconsumed occurrence of a red
character may remain. -/
def mfReds (triples : List (Char × Char × Char)) (cnt : Char → ℤ) : Bool :=
  triples.all (fun t => t.2.2 ≠ 'r' ∨ cnt t.2.1 ≤ 0)

/-- Feedback reproduction test (`CandidateGenerator::matchesFeedback`,
`CandidateGenerator.cpp` lines 37-68): greens, then yellows, then reds,
against the candidate's character multiplicities.  The C++ code walks
`candidate`/`expression`/`color` in parallel; the three strings are zipped
here (they always have equal lengths at the call sites). -/
def matchesFeedback (candidate expression color : List Char) : Bool :=
  let triples := candidate.zip (expression.zip color)
  let cnt0 : Char → ℤ := fun c => (candidate.count c : ℤ)
  match mfGreens triples cnt0 with
  | none => false
  | some cnt1 =>
    match mfYellows triples cnt1 with
    | none => false
    | some cnt2 => mfReds triples cnt2

/-! ## Feasibility estimator (`CandidateGenerator::isRhsLengthFeasible`)

The C++ routine computes with `long double` logarithms; it is modelled
with exact real arithmetic.  At the instances used in this file all
compared quantities are integers plus the literal `1e-12`, far from any
rounding boundary, so the idealization agrees with the floating
computation. -/

/-- All ordered ways of splitting `total` digit positions into `m`
positive-length blocks, in the order produced by the recursive `dfs`
lambda of `isRhsLengthFeasible`. -/
def compositions : ℕ → ℕ → List (List ℕ)
  | 0, _ => []
  | 1, total => [[total]]
  | m + 2, total =>
    (List.range' 1 (total - (m + 1))).flatMap
      (fun x => (compositions (m + 1) (total - x)).map (fun rest => x :: rest))

/-- The two largest block lengths, found by the selection loop of the
`'^'` branch (`base_len` and `exp_len`). -/
def twoLargest (parts : List ℕ) : ℕ × ℕ :=
  parts.foldl (fun be x =>
    if be.1 < x then (x, be.1) else if be.2 < x then (be.1, x) else be) (0, 0)

/-- The upper-bound logarithms contributed by one composition of block
lengths: the product bound for `'*'`, the sum bound for `'+'`/`'-'`, and
the tiered exponent bound for `'^'`. -/
noncomputable def compLogs (operators : List Char) (parts : List ℕ) : List ℝ :=
  let logs : List ℝ := parts.map (fun len => Real.logb 10 ((10 : ℝ) ^ len - 1))
  let maxLen : ℕ := parts.foldl max 0
  let m : ℕ := parts.length
  (if operators.contains '*' then [logs.sum] else []) ++
  (if operators.contains '+' ∨ operators.contains '-' then
      [(maxLen : ℝ) + Real.logb 10 (m : ℝ)] else []) ++
  (if operators.contains '^' then
      let be := twoLargest parts
      if 1 ≤ be.1 ∧ 1 ≤ be.2 then
        let baseMax : ℝ := (10 : ℝ) ^ be.1 - 1
        let expMax : ℝ := (10 : ℝ) ^ be.2 - 1
        let expLog : ℝ :=
          if expMax ≤ 20 then Real.logb 10 (baseMax ^ expMax)
          else if expMax ≤ 10 ^ 4 ∧ baseMax ≤ 9 then expMax * Real.logb 10 baseMax
          else min (10 ^ 6) (expMax * Real.logb 10 baseMax)
        [expLog]
      else []
    else [])

/-- Every candidate upper-bound logarithm gathered over all block counts
`m` and all compositions, in loop order. -/
noncomputable def bestLogCandidates (lhsLen : ℕ) (operators : List Char) : List ℝ :=
  (List.range' 1 ((lhsLen + 1) / 2)).flatMap (fun m =>
    let sumDigits := lhsLen - (m - 1)
    if sumDigits < m then []
    else (compositions m sumDigits).flatMap (compLogs operators))

open Classical in
/-- The RHS-length feasibility gate (`CandidateGenerator::isRhsLengthFeasible`,
`CandidateGenerator.cpp` lines 70-183): the best upper bound on
`log10(LHS value)` over all block compositions is converted to a maximal
digit count `⌊bestLog + 1e-12⌋ + 1`, and the RHS length is feasible when it
does not exceed it.  `lhsLen`/`rhsLen` are the C++ `int` arguments, which
are nonnegative at every call site; the `≤ 0` guards become `= 0` guards. -/
noncomputable def isRhsLengthFeasible (lhsLen rhsLen : ℕ) (operators : List Char) : Prop :=
  if lhsLen = 0 ∨ rhsLen = 0 then False
  else
    match bestLogCandidates lhsLen operators with
    | [] => False
    | c :: cs =>
      let bestLog := cs.foldl max c
      if (10 : ℝ) ^ 18 < bestLog then True
      else (rhsLen : ℤ) ≤ ⌊bestLog + 1 / 10 ^ 12⌋ + 1

/-! ## Left-hand-side token search (`CandidateGenerator::generateLeftTokens`)

The v1.0 string-based DFS of `CandidateGenerator.cpp` (lines 238-503).
The mutually recursive closures `genTokens`/`buildNumber` are modelled as
mutually recursive functions structurally decreasing on a fuel argument;
`generateLeftTokens` supplies more fuel than the maximal call depth
(bounded by `3 * lhsLen + 2`), so the embedding computes the same result
as the terminating C++ recursion. -/

/-- The closed-over, read-only data of one `generateLeftTokens` run:
target LHS length, operator set, the optional per-position allowed sets,
the optional LHS constraints map, plus the derived `requiredAtPos` vector
and the key list of `remainingMin`. -/
structure GenCtx where
  lhsLen : ℕ
  operators : List Char
  allowed : Option (List (List Char))
  cmap : Option CMap
  req : List (Option Char)
  keys : List Char

/-- The `requiredAtPos` vector: every in-range green position of every
constraint pins its character (later entries overwrite, exactly as the
C++ assignment does; the containers involved are unordered, and no claim
instance has two symbols green at one position). -/
def requiredAtPosOf (lhsLen : ℕ) (cmap : Option CMap) : List (Option Char) :=
  match cmap with
  | none => List.replicate lhsLen none
  | some m =>
    m.foldl (fun req e =>
      e.2.greenPos.foldl (fun req gp =>
        if 0 ≤ gp ∧ gp < (lhsLen : ℤ) then req.set gp.toNat (some e.1) else req) req)
      (List.replicate lhsLen none)

/-- Initial `remainingMin` table: each map key's `minCount` (0 when no
constraints map was supplied). -/
def rmInit (cmap : Option CMap) : Char → ℤ :=
  fun ch =>
    match cmap with
    | none => 0
    | some m => ((findC m ch).map Constraint.minCount).getD 0

/-- The per-character admission test `isCharAllowedAt` of
`generateLeftTokens`: green-pinned positions admit only their character;
the per-position allowed set (when non-empty) must contain the character;
the character must be below its `maxCount` (counted over the current
prefix) and the position must not be banned for it.  (The C++ v1.0
snapshot indexes `bannedPos` like the `vector<bool>` of a sibling
revision; the test is modelled as position membership, its meaning under
that revision.) -/
def isCharAllowedAt (ctx : GenCtx) (ch : Char) (pos : ℕ) (current : List Char) : Bool :=
  if (ctx.req.getD pos none).elim false (fun rc => rc ≠ ch) then false
  else
    let allowedPos :=
      match ctx.allowed with
      | some av =>
        if pos < av.length ∧ (av.getD pos []) ≠ [] ∧ ¬ (av.getD pos []).contains ch
        then false else true
      | none => true
    let passedMax :=
      match ctx.cmap with
      | some m =>
        match findC m ch with
        | some con =>
          let used : ℤ := (current.count ch : ℤ)
          if con.maxCount = 0 ∨ con.maxCount ≤ used then false else true
        | none => true
      | none => true
    let passedBan :=
      match ctx.cmap with
      | some m =>
        match findC m ch with
        | some con => ¬ con.bannedPos.contains (pos : ℤ)
        | none => true
      | none => true
    allowedPos && passedMax && passedBan

/-- Semantic operator pruning (`checkOperatorValidity` inside
`generateLeftTokens`): no leading `*`, `/`, `^`, no doubled operators, no
stacked `'^'`, the running prefix must evaluate, a `'/'` may not follow a
(near-)zero value, and the running value may not be negative. -/
def checkOperatorValidity (operators : List Char) (expr : List Char) (nextOp : Char) : Bool :=
  if expr = [] then (nextOp = '+' ∨ nextOp = '-')
  else
    let last := expr.getLastD ' '
    if expr.length = 1 ∧ (nextOp = '*' ∨ nextOp = '/' ∨ nextOp = '^') then false
    else if operators.contains last then false
    else if last = '^' ∧ nextOp = '^' then false
    else
      match safeEval operators expr with
      | none => false
      | some val =>
        if nextOp = '/' ∧ val.abs.ltb EPSILON then false
        else if val.ltb (Frac.ofInt 0) then false
        else true

mutual

/-- The outer recursion of the DFS (`genTokens`): terminal check, the
`remainingMin` prune, then every number-block length.  (The push at
`remaining = 0` inside the loop body of the C++ function is dead code —
the function returns earlier — and is omitted.) -/
def genTokens (ctx : GenCtx) : ℕ → ℕ → Bool → Bool → List Char → (Char → ℤ) → List (List Char)
  | 0, _, _, _, _, _ => []
  | fuel + 1, pos, expectNumber, hasOperator, current, rm =>
    if ctx.lhsLen ≤ pos then
      if ¬ expectNumber ∧ hasOperator then [current] else []
    else
      let remaining := ctx.lhsLen - pos
      if ctx.keys.any (fun ch => (remaining : ℤ) < rm ch) then []
      else
        (List.range' 1 remaining).flatMap (fun numLen =>
          if remaining - numLen = 1 then []
          else buildNumber ctx fuel pos numLen hasOperator 0 current rm)

/-- The inner recursion of the DFS (`buildNumber`): build one multi-digit
block character by character, then either finish the LHS (when the block
reaches the end and an operator was already placed) or try every operator
and recurse. -/
def buildNumber (ctx : GenCtx) :
    ℕ → ℕ → ℕ → Bool → ℕ → List Char → (Char → ℤ) → List (List Char)
  | 0, _, _, _, _, _, _ => []
  | fuel + 1, pos, numLen, hasOperator, idx, current, rm =>
    let after := ctx.lhsLen - pos - numLen
    if idx = numLen then
      if after = 0 then
        if hasOperator then [current] else []
      else
        ctx.operators.flatMap (fun op =>
          let opPos := pos + numLen
          if ¬ isCharAllowedAt ctx op opPos current then []
          else if ¬ checkOperatorValidity ctx.operators current op then []
          else
            match ctx.req.getD opPos none with
            | some rc =>
              if rc ≠ op then []
              else genTokens ctx fuel (opPos + 1) true true (current ++ [op]) rm
            | none => genTokens ctx fuel (opPos + 1) true true (current ++ [op]) rm)
    else
      let absolutePos := pos + idx
      let cands0 := digitChars.filter (fun d =>
        ¬ (idx = 0 ∧ 1 < numLen ∧ d = '0') ∧ isCharAllowedAt ctx d absolutePos current)
      let cands :=
        match ctx.req.getD absolutePos none with
        | some rc => if cands0.contains rc then [rc] else []
        | none => cands0
      if pos + numLen = ctx.lhsLen ∧ ¬ hasOperator then []
      else if cands = [] then []
      else
        cands.flatMap (fun ch =>
          let current' := current ++ [ch]
          let rm' := if ctx.keys.contains ch
            then (fun c => if c = ch then rm c - 1 else rm c) else rm
          match safeEval ctx.operators current' with
          | some v =>
            if v.ltb (Frac.ofInt 0) then []
            else buildNumber ctx fuel pos numLen hasOperator (idx + 1) current' rm'
          | none => buildNumber ctx fuel pos numLen hasOperator (idx + 1) current' rm')

end

/-- Entry point of the LHS search (`CandidateGenerator::generateLeftTokens`). -/
def generateLeftTokens (lhsLen : ℕ) (operators : List Char)
    (allowed : Option (List (List Char))) (cmap : Option CMap) : List (List Char) :=
  let ctx : GenCtx :=
    { lhsLen := lhsLen, operators := operators, allowed := allowed, cmap := cmap,
      req := requiredAtPosOf lhsLen cmap,
      keys := match cmap with | none => [] | some m => m.map (fun e => e.1) }
  genTokens ctx (3 * lhsLen + 16) 0 true false [] (rmInit cmap)

/-! ## Candidate generation (`CandidateGenerator::generate`, v1.0) -/

/-- Insert into an `unordered_set<char>` modelled as a duplicate-free list. -/
def insertChar (xs : List Char) (c : Char) : List Char :=
  if xs.contains c then xs else xs ++ [c]

/-- Per-position sets of green-confirmed characters (`allowedPerPos`). -/
def allowedPerPosOf (length : ℕ) (exprs colors : List (List Char)) : List (List Char) :=
  (List.range length).map (fun p =>
    (exprs.zip colors).foldl (fun acc ec =>
      if ec.2.getD p ' ' = 'g' then insertChar acc (ec.1.getD p ' ') else acc) [])

/-- Whether any green feedback exists anywhere (`useAllowed`). -/
def useAllowedOf (length : ℕ) (exprs colors : List (List Char)) : Bool :=
  (exprs.zip colors).any (fun ec => (List.range length).any (fun p => ec.2.getD p ' ' = 'g'))

/-- The fixed `'='` position: the first green `'='` over the guesses in
recording order.  (This is the combined effect of `analyzeGuessConflicts`
and the subsequent scan loop in `generate`: when the green `'='`
positions are consistent both phases yield that unique position, and
otherwise the scan finds the first green `'='` in guess order.) -/
def firstGreenEqPos (exprs colors : List (List Char)) : Option ℕ :=
  (exprs.zip colors).findSome? (fun ec =>
    (ec.1.zip ec.2).findIdx? (fun p => p.1 = '=' ∧ p.2 = 'g'))

/-- The `'='` positions tried by `generate`: the fixed green position when
one exists, otherwise every position from `length - 2` down to `3`. -/
def eqPositionsOf (length : ℕ) (exprs colors : List (List Char)) : List ℕ :=
  match firstGreenEqPos exprs colors with
  | some p => [p]
  | none => (List.range' 3 (length - 4)).reverse

/-- The RHS-aware relaxation of the minimum counts applied before the LHS
search (`con.minCount() = max(0, con.minCount() - rhsAvailable)`). -/
def lhsAdjustedMap (cmap : CMap) (rhsLen : ℕ) : CMap :=
  cmap.map (fun e => (e.1, { e.2 with minCount := max 0 (e.2.minCount - (rhsLen : ℤ)) }))

/-- The per-LHS acceptance tail of `generate`: evaluate the LHS (errors
skip it), reject negative values, render the RHS in decimal
(`to_string` of the `long long` conversion, which truncates), require the
exact RHS length, and keep the assembled candidate only when it
reproduces every recorded feedback. -/
def acceptLhs (operators : List Char) (exprs colors : List (List Char)) (rhsLen : ℕ)
    (lhs : List Char) : List (List Char) :=
  match evalExpr operators lhs with
  | .error _ => []
  | .ok v =>
    if v.trunc < 0 then []
    else if (Nat.toDigits 10 v.trunc.toNat).length ≠ rhsLen then []
    else if (exprs.zip colors).all (fun ec =>
        matchesFeedback (lhs ++ '=' :: Nat.toDigits 10 v.trunc.toNat) ec.1 ec.2)
    then [lhs ++ '=' :: Nat.toDigits 10 v.trunc.toNat] else []

/-- Everything `generate` does for one `'='` position after the
feasibility gate.  (The quantities independent of `eqPos` — the allowed
sets, the derived constraints — are recomputed here; they are pure, so
this agrees with the single computation the C++ function performs.  The
`forbidden` set the C++ code builds is never read afterwards and is not
modelled.) -/
def generateAtEq (length : ℕ) (operators : List Char) (exprs colors : List (List Char))
    (eqPos : ℕ) : List (List Char) :=
  let lhsLen := eqPos
  let rhsLen := length - eqPos - 1
  let allowedPP := allowedPerPosOf length exprs colors
  let useAllowed := useAllowedOf length exprs colors
  let cmap := deriveConstraints exprs colors (length : ℤ)
  let lhsMap := lhsAdjustedMap cmap rhsLen
  let lhsCands := generateLeftTokens lhsLen operators
    (if useAllowed then some (allowedPP.take lhsLen) else none) (some lhsMap)
  lhsCands.flatMap (acceptLhs operators exprs colors rhsLen)

open Classical in
/-- First-round candidate generation (`CandidateGenerator::generate`,
`CandidateGenerator.cpp` lines 505-653): for every candidate `'='`
position passing the RHS-length feasibility gate, run the LHS search and
keep the feedback-consistent equations. -/
noncomputable def generate (length : ℕ) (operators : List Char)
    (exprs colors : List (List Char)) : List (List Char) :=
  (eqPositionsOf length exprs colors).flatMap (fun eqPos =>
    if isRhsLengthFeasible eqPos (length - eqPos - 1) operators
    then generateAtEq length operators exprs colors eqPos
    else [])

/-! ## Statement helpers

Definitions used only to state the verified properties (they are not part
of the embedded code). -/

/-- The green positions recorded for `'='` while one guess/feedback pair is
scanned from position `pos` (guess character `'='` with case-insensitive
green feedback). -/
def eqGreensFrom (pos : ℤ) : List (Char × Char) → List ℤ
  | [] => []
  | (ch, col) :: rest =>
    (if ch = '=' ∧ col.toLower = 'g' then [pos] else []) ++ eqGreensFrom (pos + 1) rest

/-- One guess/feedback pair's contribution to the recorded `'='` green
positions: pairs that `deriveConstraints` skips (length mismatches)
contribute nothing. -/
def recordPairGreens (len : ℤ) (acc : List ℤ) (p : List Char × List Char) : List ℤ :=
  if (p.1.length : ℤ) ≠ len then acc
  else if (p.2.length : ℤ) ≠ len then acc
  else (eqGreensFrom 0 (p.1.zip p.2)).foldl insertPos acc

/-- All distinct green positions recorded for `'='` across a guess
history, in recording order. -/
def recordedEqGreens (exprs colors : List (List Char)) (len : ℤ) : List ℤ :=
  (exprs.zip colors).foldl (recordPairGreens len) []

/-- The standard full operator set (`setValidOps({'+','-','*','/','^'})`). -/
def stdOps : List Char := ['+', '-', '*', '/', '^']

/-- Maximal digit runs of a string, in order. -/
def digitRunsAux : List Char → List Char → List (List Char)
  | [], acc => if acc = [] then [] else [acc]
  | c :: rest, acc =>
    if c.isDigit then digitRunsAux rest (acc ++ [c])
    else (if acc = [] then [] else [acc]) ++ digitRunsAux rest []

/-- Maximal digit runs of a string, in order. -/
def digitRuns (s : List Char) : List (List Char) := digitRunsAux s []

/-! ## Lemmas about the association-list constraint map -/

theorem findC_cons (k : Char) (con : Constraint) (m : CMap) (c : Char) :
    findC ((k, con) :: m) c = if k = c then some con else findC m c := by
  by_cases h : k = c <;> simp [findC, List.find?, h]

theorem findC_modifyC_self (m : CMap) (c : Char) (f : Constraint → Constraint) :
    findC (modifyC m c f) c = some (f ((findC m c).getD defaultConstraint)) := by
  induction m with
  | nil => simp [modifyC, findC]
  | cons e rest ih =>
    obtain ⟨k, con⟩ := e
    by_cases h : k = c
    · subst h
      simp [modifyC, findC]
    · simp only [modifyC, if_neg h]
      simp only [findC, List.find?] at ih ⊢
      simp [h, ih]

theorem findC_modifyC_ne (m : CMap) (k c : Char) (f : Constraint → Constraint)
    (h : k ≠ c) : findC (modifyC m k f) c = findC m c := by
  induction m with
  | nil => simp [modifyC, findC, h]
  | cons e rest ih =>
    obtain ⟨k', con⟩ := e
    by_cases h' : k' = k
    · subst h'
      simp [modifyC, findC, List.find?, h]
    · simp only [modifyC, if_neg h']
      simp only [findC, List.find?] at ih ⊢
      by_cases h'' : k' = c <;> simp [h'', ih]

theorem findC_map_entries (m : CMap) (F : Char → Constraint → Constraint) (c : Char) :
    findC (m.map (fun e => (e.1, F e.1 e.2))) c = (findC m c).map (F c) := by
  induction m with
  | nil => simp [findC]
  | cons e rest ih =>
    obtain ⟨k, con⟩ := e
    rw [List.map_cons, findC_cons, findC_cons]
    by_cases h : k = c
    · simp [h]
    · simp [h, ih]

/-! ## Lemmas about the count merge (`processSingleGuess`) -/

theorem mergeCounts_greenPos (con : Constraint) (g y r INF : ℤ) :
    (mergeCounts con g y r INF).greenPos = con.greenPos := by
  unfold mergeCounts
  split_ifs <;> rfl

theorem mergeCounts_not_conflict (con : Constraint) (g y r INF : ℤ)
    (h : (mergeCounts con g y r INF).hasConflict = false) :
    (mergeCounts con g y r INF).minCount = max con.minCount (g + y) ∧
    (mergeCounts con g y r INF).maxCount = min con.maxCount (newMaxCand g y r INF) := by
  unfold mergeCounts at h ⊢
  split_ifs at h ⊢ with hc
  exact ⟨rfl, rfl⟩

theorem mergeCounts_conflict (con : Constraint) (g y r INF : ℤ)
    (hb : con.minCount = con.maxCount)
    (hv : con.minCount < g + y ∨ newMaxCand g y r INF < con.maxCount) :
    (mergeCounts con g y r INF).hasConflict = true ∧
    (mergeCounts con g y r INF).minCount = min (g + y) con.minCount ∧
    (mergeCounts con g y r INF).maxCount = max (newMaxCand g y r INF) con.maxCount := by
  unfold mergeCounts
  rw [if_pos (Or.inr ⟨hb, hv⟩)]
  exact ⟨rfl, rfl, rfl⟩

theorem updateConstraintPos_counts (col : Char) (pos : ℤ) (con : Constraint) :
    (updateConstraintPos col pos con).minCount = con.minCount ∧
    (updateConstraintPos col pos con).maxCount = con.maxCount ∧
    (updateConstraintPos col pos con).hasConflict = con.hasConflict := by
  unfold updateConstraintPos
  split_ifs <;> exact ⟨rfl, rfl, rfl⟩

/-- Preservation of the count fields through one positional update. -/
theorem findC_posStep (a col : Char) (pos : ℤ) (st : CMap × List Bool) (ch : Char)
    (con : Constraint) (hfind : findC st.1 ch = some con) :
    ∃ con', findC (posStep a col pos st).1 ch = some con' ∧
      con'.minCount = con.minCount ∧ con'.maxCount = con.maxCount ∧
      con'.hasConflict = con.hasConflict := by
  unfold posStep
  split_ifs with h1 h2 h3 <;> (try dsimp only) <;>
    first
    | exact ⟨con, hfind, rfl, rfl, rfl⟩
    | (by_cases h : a = ch
       · subst h
         refine ⟨_, findC_modifyC_self st.1 a _, ?_⟩
         rw [hfind]
         exact updateConstraintPos_counts _ _ _
       · exact ⟨con, by rw [findC_modifyC_ne st.1 a ch _ h]; exact hfind, rfl, rfl, rfl⟩)

/-- Preservation of the count fields through the whole positional phase. -/
theorem findC_posUpdates (l : List (Char × Char)) (pos : ℤ) (st : CMap × List Bool)
    (ch : Char) (con : Constraint) (hfind : findC st.1 ch = some con) :
    ∃ con', findC (posUpdates pos l st).1 ch = some con' ∧
      con'.minCount = con.minCount ∧ con'.maxCount = con.maxCount ∧
      con'.hasConflict = con.hasConflict := by
  induction l generalizing pos st con with
  | nil => exact ⟨con, hfind, rfl, rfl, rfl⟩
  | cons p rest ih =>
    obtain ⟨a, col⟩ := p
    obtain ⟨con₁, h₁, hmin, hmax, hcf⟩ := findC_posStep a col pos st ch con hfind
    obtain ⟨con', h', hmin', hmax', hcf'⟩ := ih (pos + 1) (posStep a col pos st) con₁ h₁
    exact ⟨con', h', by rw [hmin', hmin], by rw [hmax', hmax], by rw [hcf', hcf]⟩

/-- What `processSingleGuess` does to the entry of one symbol: the count
merge applied to a constraint whose count fields are those going in. -/
theorem findC_processSingleGuess (e c : List Char) (m : CMap) (flags : List Bool)
    (INF : ℤ) (ch : Char) (con : Constraint) (hfind : findC m ch = some con) :
    ∃ con₁, findC (processSingleGuess e c (m, flags) INF).1 ch =
        some (mergeCounts con₁ (colorCount e c 'g' ch) (colorCount e c 'y' ch)
                (colorCount e c 'r' ch) INF) ∧
      con₁.minCount = con.minCount ∧ con₁.maxCount = con.maxCount ∧
      con₁.hasConflict = con.hasConflict := by
  obtain ⟨con₁, h₁, hmin, hmax, hcf⟩ :=
    findC_posUpdates (e.zip c) 0 (m, flags) ch con hfind
  refine ⟨con₁, ?_, hmin, hmax, hcf⟩
  unfold processSingleGuess
  refine Eq.trans (findC_map_entries (posUpdates 0 (e.zip c) (m, flags)).1
    (fun a b => mergeCounts b (colorCount e c 'g' a) (colorCount e c 'y' a)
      (colorCount e c 'r' a) INF) ch) ?_
  rw [h₁]
  rfl

/-- C2.  For every guess/feedback pair processed by constraint derivation
and every symbol of the map not flagged as conflicting afterwards: with
`g`, `y`, `r` the counts of green, yellow and red feedback the symbol
received within that single guess, the symbol's `minCount` becomes
`max(previous minCount, g+y)` and its `maxCount` becomes
`min(previous maxCount, B)` where `B = g+y` when `r > 0 ∧ g+y > 0`,
`B = 0` when `r > 0 ∧ g+y = 0`, and `B` is the no-information bound `INF`
when `r = 0` — in which case `maxCount` is unchanged whenever it did not
exceed `INF`. -/
theorem c2_per_guess_count_bounds (e c : List Char) (m : CMap) (flags : List Bool)
    (INF : ℤ) (ch : Char) (con con' : Constraint)
    (hfind : findC m ch = some con)
    (hfind' : findC (processSingleGuess e c (m, flags) INF).1 ch = some con')
    (hnc : con'.hasConflict = false) :
    con'.minCount = max con.minCount (colorCount e c 'g' ch + colorCount e c 'y' ch) ∧
    con'.maxCount = min con.maxCount
      (if 0 < colorCount e c 'r' ch then
        (if 0 < colorCount e c 'g' ch + colorCount e c 'y' ch
         then colorCount e c 'g' ch + colorCount e c 'y' ch else 0)
       else INF) ∧
    (colorCount e c 'r' ch = 0 → con.maxCount ≤ INF → con'.maxCount = con.maxCount) := by
  obtain ⟨con₁, h₁, hmin, hmax, _⟩ := findC_processSingleGuess e c m flags INF ch con hfind
  rw [hfind'] at h₁
  obtain rfl : con' = _ := Option.some.injEq .. ▸ h₁
  obtain ⟨hm1, hm2⟩ := mergeCounts_not_conflict con₁ _ _ _ INF hnc
  have hB : newMaxCand (colorCount e c 'g' ch) (colorCount e c 'y' ch)
      (colorCount e c 'r' ch) INF =
      (if 0 < colorCount e c 'r' ch then
        (if 0 < colorCount e c 'g' ch + colorCount e c 'y' ch
         then colorCount e c 'g' ch + colorCount e c 'y' ch else 0)
       else INF) := rfl
  refine ⟨by rw [hm1, hmin], by rw [hm2, hmax, hB], ?_⟩
  intro hr hle
  rw [hm2, hmax]
  have : newMaxCand (colorCount e c 'g' ch) (colorCount e c 'y' ch)
      (colorCount e c 'r' ch) INF = INF := by
    unfold newMaxCand
    rw [hr]
    simp
  rw [this]
  exact min_eq_left hle

/-- Witness for C2 at a concrete input: the all-green first guess of
Scenario A, symbol `'1'`, starting from the freshly initialized map. -/
theorem c2_per_guess_count_bounds_witness :
    ∃ con con' : Constraint,
      findC initialConstraintsMap '1' = some con ∧
      findC (processSingleGuess ("1+2=3".toList) ("ggggg".toList)
          (initialConstraintsMap, List.replicate 5 false) 5).1 '1' = some con' ∧
      con'.hasConflict = false ∧
      con'.minCount = max con.minCount
        (colorCount ("1+2=3".toList) ("ggggg".toList) 'g' '1' +
         colorCount ("1+2=3".toList) ("ggggg".toList) 'y' '1') := by
  refine ⟨defaultConstraint,
    (findC (processSingleGuess ("1+2=3".toList) ("ggggg".toList)
        (initialConstraintsMap, List.replicate 5 false) 5).1 '1').getD defaultConstraint,
    by decide, by decide, by decide, ?_⟩
  have h := c2_per_guess_count_bounds ("1+2=3".toList) ("ggggg".toList)
    initialConstraintsMap (List.replicate 5 false) 5 '1' defaultConstraint
    ((findC (processSingleGuess ("1+2=3".toList) ("ggggg".toList)
        (initialConstraintsMap, List.replicate 5 false) 5).1 '1').getD defaultConstraint)
    (by decide) (by decide) (by decide)
  exact h.1

/-- C6.  If a symbol was previously exactly bounded
(`minCount = maxCount`) and the new guess's candidate bounds would
violate that exact value, constraint derivation sets the symbol's
`hasConflict` flag and widens instead of tightening: `minCount` becomes
`min(old minCount, g+y)` and `maxCount` becomes
`max(old maxCount, newMaxCand)`. -/
theorem c6_conflict_widens (e c : List Char) (m : CMap) (flags : List Bool)
    (INF : ℤ) (ch : Char) (con con' : Constraint)
    (hfind : findC m ch = some con)
    (hb : con.minCount = con.maxCount)
    (hviol : con.minCount < colorCount e c 'g' ch + colorCount e c 'y' ch ∨
      newMaxCand (colorCount e c 'g' ch) (colorCount e c 'y' ch)
        (colorCount e c 'r' ch) INF < con.maxCount)
    (hfind' : findC (processSingleGuess e c (m, flags) INF).1 ch = some con') :
    con'.hasConflict = true ∧
    con'.minCount = min con.minCount (colorCount e c 'g' ch + colorCount e c 'y' ch) ∧
    con'.maxCount = max con.maxCount
      (newMaxCand (colorCount e c 'g' ch) (colorCount e c 'y' ch)
        (colorCount e c 'r' ch) INF) := by
  obtain ⟨con₁, h₁, hmin, hmax, _⟩ := findC_processSingleGuess e c m flags INF ch con hfind
  rw [hfind'] at h₁
  obtain rfl : con' = _ := Option.some.injEq .. ▸ h₁
  obtain ⟨hc1, hc2, hc3⟩ := mergeCounts_conflict con₁ _ _ _ INF
    (by rw [hmin, hmax, hb]) (by rw [hmin, hmax]; exact hviol)
  exact ⟨hc1, by rw [hc2, hmin, min_comm], by rw [hc3, hmax, max_comm]⟩

/-- Witness for C6 at a concrete input: after `"2+2=4" / "ggrgr"` the
symbol `'2'` is exactly bounded at `[1,1]`; the contradictory feedback
`"ggygr"` for the same guess then flags the conflict and widens the
bounds to `[1,5]`. -/
theorem c6_conflict_widens_witness :
    ∃ con con' : Constraint,
      findC (deriveConstraints [("2+2=4".toList)] [("ggrgr".toList)] 5) '2' = some con ∧
      con.minCount = con.maxCount ∧
      con.minCount < colorCount ("2+2=4".toList) ("ggygr".toList) 'g' '2' +
        colorCount ("2+2=4".toList) ("ggygr".toList) 'y' '2' ∧
      findC (processSingleGuess ("2+2=4".toList) ("ggygr".toList)
        (deriveConstraints [("2+2=4".toList)] [("ggrgr".toList)] 5,
          List.replicate 5 false) 5).1 '2' = some con' ∧
      con'.hasConflict = true ∧ con'.minCount = 1 ∧ con'.maxCount = 5 := by
  refine ⟨(findC (deriveConstraints [("2+2=4".toList)] [("ggrgr".toList)] 5) '2').getD
      defaultConstraint,
    (findC (processSingleGuess ("2+2=4".toList) ("ggygr".toList)
        (deriveConstraints [("2+2=4".toList)] [("ggrgr".toList)] 5,
          List.replicate 5 false) 5).1 '2').getD defaultConstraint,
    by decide, by decide, by decide, by decide, ?_, by decide, by decide⟩
  have h := c6_conflict_widens ("2+2=4".toList) ("ggygr".toList)
    (deriveConstraints [("2+2=4".toList)] [("ggrgr".toList)] 5)
    (List.replicate 5 false) 5 '2'
    ((findC (deriveConstraints [("2+2=4".toList)] [("ggrgr".toList)] 5) '2').getD
      defaultConstraint)
    ((findC (processSingleGuess ("2+2=4".toList) ("ggygr".toList)
        (deriveConstraints [("2+2=4".toList)] [("ggrgr".toList)] 5,
          List.replicate 5 false) 5).1 '2').getD defaultConstraint)
    (by decide) (by decide) (Or.inl (by decide)) (by decide)
  exact h.1

/-! ## The feasibility estimator at LHS length 3 with operator set `{+}` -/

theorem bestLog_three : bestLogCandidates 3 ['+'] =
    [((3 : ℕ) : ℝ) + Real.logb 10 ((1 : ℕ) : ℝ),
     ((1 : ℕ) : ℝ) + Real.logb 10 ((2 : ℕ) : ℝ)] := rfl

/-- For a three-character LHS and operators `{+}` the estimator's best
bound is `bestLog = max (3 + log10 1) (1 + log10 2) = 3`, so
`maxDigits = ⌊3 + 1e-12⌋ + 1 = 4` and a positive RHS length is feasible
exactly when it is at most 4. -/
theorem feasible_three_iff (r : ℕ) (hr : 1 ≤ r) :
    isRhsLengthFeasible 3 r ['+'] ↔ r ≤ 4 := by
  unfold isRhsLengthFeasible
  rw [if_neg (by omega : ¬ (3 = 0 ∨ r = 0))]
  rw [bestLog_three]
  have h1 : Real.logb 10 ((1 : ℕ) : ℝ) = 0 := by
    rw [Nat.cast_one, Real.logb_one]
  have h2 : Real.logb 10 ((2 : ℕ) : ℝ) ≤ 1 := by
    have := Real.logb_le_logb_of_le (b := 10) (by norm_num)
      (x := ((2 : ℕ) : ℝ)) (by norm_num) (y := 10) (by norm_num)
    rwa [Real.logb_self_eq_one (by norm_num)] at this
  show (if (10 : ℝ) ^ 18 < List.foldl max (((3 : ℕ) : ℝ) + Real.logb 10 ((1 : ℕ) : ℝ))
      [((1 : ℕ) : ℝ) + Real.logb 10 ((2 : ℕ) : ℝ)] then True
    else (r : ℤ) ≤ ⌊List.foldl max (((3 : ℕ) : ℝ) + Real.logb 10 ((1 : ℕ) : ℝ))
      [((1 : ℕ) : ℝ) + Real.logb 10 ((2 : ℕ) : ℝ)] + 1 / 10 ^ 12⌋ + 1) ↔ r ≤ 4
  have hbest : List.foldl max (((3 : ℕ) : ℝ) + Real.logb 10 ((1 : ℕ) : ℝ))
      [((1 : ℕ) : ℝ) + Real.logb 10 ((2 : ℕ) : ℝ)] = 3 := by
    simp only [List.foldl]
    rw [h1, Nat.cast_ofNat, Nat.cast_one, add_zero]
    rw [max_eq_left (by linarith)]
  rw [hbest]
  rw [if_neg (by norm_num)]
  have hfloor : ⌊(3 : ℝ) + 1 / 10 ^ 12⌋ = 3 := by
    rw [Int.floor_eq_iff]
    constructor <;> norm_num
  rw [hfloor]
  omega

/-- The feasibility gate accepts a one-digit RHS after a three-character
LHS with `{+}` (used by the Scenario A pipeline). -/
theorem feasible_three_one : isRhsLengthFeasible 3 1 ['+'] :=
  (feasible_three_iff 1 (by norm_num)).mpr (by norm_num)

/-- C5, counterexample.  The claim states
`isRhsLengthFeasible(3, 3, {+}) = false`; in fact the estimator accepts a
three-digit RHS for a three-character LHS with `{+}`: its `m = 1`
single-block case contributes `addLog = 3 + log10 1 = 3`, giving
`maxDigits = 4 ≥ 3`. -/
theorem c5_counterexample : isRhsLengthFeasible 3 3 ['+'] :=
  (feasible_three_iff 3 (by norm_num)).mpr (by norm_num)

/-- C5, as amended.  For LHS length 3 and operator set `{+}` the
feasibility test accepts RHS length 2 — and also RHS length 3: the
computed maximum digit count is `⌊3 + 1e-12⌋ + 1 = 4`, and a positive RHS
length is accepted exactly when `maxDigits ≥ rhsLen`, i.e. when it is at
most 4. -/
theorem c5_feasibility_shape :
    isRhsLengthFeasible 3 2 ['+'] ∧ isRhsLengthFeasible 3 3 ['+'] ∧
    ∀ r : ℕ, 1 ≤ r → (isRhsLengthFeasible 3 r ['+'] ↔ r ≤ 4) :=
  ⟨(feasible_three_iff 2 (by norm_num)).mpr (by norm_num),
   (feasible_three_iff 3 (by norm_num)).mpr (by norm_num),
   fun r hr => feasible_three_iff r hr⟩

/-- Witness for C5 at the concrete RHS length 2. -/
theorem c5_feasibility_shape_witness :
    (1 : ℕ) ≤ 2 ∧ (isRhsLengthFeasible 3 2 ['+'] ↔ 2 ≤ 4) :=
  ⟨by norm_num, c5_feasibility_shape.2.2 2 (by norm_num)⟩

/-! ## The generation pipeline at concrete instances -/

/-- Scenario A end to end: one all-green guess `"1+2=3"` makes the search
return exactly that equation. -/
theorem generate_scenarioA :
    generate 5 ['+'] [("1+2=3".toList)] [("ggggg".toList)] = [("1+2=3".toList)] := by
  unfold generate
  rw [show eqPositionsOf 5 [("1+2=3".toList)] [("ggggg".toList)] = [3] from rfl,
    List.flatMap_cons, List.flatMap_nil, List.append_nil,
    if_pos feasible_three_one]
  decide

/-- C1.  For target length 5, operator set `{+}`, and the single recorded
guess `"1+2=3"` with feedback `"ggggg"`, `generate` returns exactly the
one-element result set `{"1+2=3"}`. -/
theorem c1_scenarioA :
    generate 5 ['+'] [("1+2=3".toList)] [("ggggg".toList)] = [("1+2=3".toList)] :=
  generate_scenarioA

/-- C8, counterexample.  The claim states that every string returned by
`generate` satisfies `isCandidateValid` against the constraint map derived
from the same history.  With the single (honestly answerable) guess
`"4+0=4"` and feedback `"ygrgr"`, `generate` returns the candidate
`"1+3=4"` — whose `'4'` sits at position 4, a position banned for `'4'`
by the red feedback, so `isCandidateValid` rejects it: `generate` never
re-checks banned positions on the right-hand side it computes. -/
theorem c8_counterexample :
    ("1+3=4".toList) ∈ generate 5 ['+'] [("4+0=4".toList)] [("ygrgr".toList)] ∧
    isCandidateValid ("1+3=4".toList)
      (deriveConstraints [("4+0=4".toList)] [("ygrgr".toList)] 5) = false := by
  refine ⟨?_, by decide⟩
  unfold generate
  rw [show eqPositionsOf 5 [("4+0=4".toList)] [("ygrgr".toList)] = [3] from rfl,
    List.flatMap_cons, List.flatMap_nil, List.append_nil,
    if_pos feasible_three_one]
  decide

/-- C8, as amended.  `filterExpressions` returns exactly those elements of
its input, in input order, for which `isCandidateValid` holds: its output
is a sublist of the input, every survivor is valid, and every valid input
element survives. -/
theorem c8_filter_exactness (cands : List (List Char)) (m : CMap) :
    List.Sublist (filterExpressions cands m) cands ∧
    (∀ cand ∈ filterExpressions cands m, isCandidateValid cand m = true) ∧
    (∀ cand ∈ cands, isCandidateValid cand m = true → cand ∈ filterExpressions cands m) := by
  refine ⟨List.filter_sublist cands, ?_, ?_⟩
  · intro cand h
    exact (List.mem_filter.mp h).2
  · intro cand h hv
    exact List.mem_filter.mpr ⟨h, hv⟩

/-- Witness for C8 (amended) at a concrete input. -/
theorem c8_filter_exactness_witness :
    ("1+2=3".toList) ∈ filterExpressions [("1+2=3".toList)]
      (deriveConstraints [("1+2=3".toList)] [("ggggg".toList)] 5) ∧
    isCandidateValid ("1+2=3".toList)
      (deriveConstraints [("1+2=3".toList)] [("ggggg".toList)] 5) = true := by
  have h := c8_filter_exactness [("1+2=3".toList)]
    (deriveConstraints [("1+2=3".toList)] [("ggggg".toList)] 5)
  have hmem := h.2.2 ("1+2=3".toList) (by decide) (by decide)
  exact ⟨hmem, h.2.1 ("1+2=3".toList) hmem⟩

/-- C9.  The search path that is live in the repository emits bare-`'0'`
operands: with the (fully honest) history `"2+0=2" / "ggggg"`, `generate`
returns exactly `"2+0=2"`, whose left-hand side has the maximal digit run
`"0"` — while the repository's own latest token validator,
`ConstraintUtils::isTokenSequenceValid`, rejects a standalone `"0"`
token, as the claim demands. -/
theorem c9_bare_zero_generated :
    generate 5 ['+'] [("2+0=2".toList)] [("ggggg".toList)] = [("2+0=2".toList)] ∧
    digitRuns (("2+0=2".toList).takeWhile (fun c => c ≠ '=')) = [['2'], ['0']] ∧
    isTokenSequenceValid [⟨TokenType.Digit, ['0']⟩] = false := by
  refine ⟨?_, by decide, by decide⟩
  unfold generate
  rw [show eqPositionsOf 5 [("2+0=2".toList)] [("ggggg".toList)] = [3] from rfl,
    List.flatMap_cons, List.flatMap_nil, List.append_nil,
    if_pos feasible_three_one]
  decide

/-- C3, counterexample.  The claim extends the feedback round-trip to
candidates surviving `filterExpressions`.  Take the first-round history
`"2+2=4" / "ggrgr"` — `generate` returns `"2+1=3"` among others — and
let the same guess be recorded again with the contradictory feedback
`"ggygr"` (red at position 2 changed to yellow).  Constraint derivation
flags the conflict on `'2'` and widens its bounds, `filterExpressions`
keeps `"2+1=3"`, yet that candidate does not reproduce the second
feedback string. -/
theorem c3_counterexample :
    ("2+1=3".toList) ∈ generate 5 ['+'] [("2+2=4".toList)] [("ggrgr".toList)] ∧
    filterExpressions [("2+1=3".toList)]
      (deriveConstraints [("2+2=4".toList), ("2+2=4".toList)]
        [("ggrgr".toList), ("ggygr".toList)] 5) = [("2+1=3".toList)] ∧
    matchesFeedback ("2+1=3".toList) ("2+2=4".toList) ("ggygr".toList) = false := by
  refine ⟨?_, by decide, by decide⟩
  unfold generate
  rw [show eqPositionsOf 5 [("2+2=4".toList)] [("ggrgr".toList)] = [3] from rfl,
    List.flatMap_cons, List.flatMap_nil, List.append_nil,
    if_pos feasible_three_one]
  decide

/-- C3, as amended.  Every candidate returned by the first-round full
search reproduces every recorded guess's exact feedback string: the final
acceptance step of `generate` keeps a candidate only when
`matchesFeedback` succeeds against the entire history.  (The
`filterExpressions` half of the original claim is refuted by
`c3_counterexample`.) -/
theorem c3_generate_roundtrip (length : ℕ) (operators : List Char)
    (exprs colors : List (List Char)) (cand : List Char)
    (hmem : cand ∈ generate length operators exprs colors) :
    ∀ ec ∈ exprs.zip colors, matchesFeedback cand ec.1 ec.2 = true := by
  intro ec hec
  unfold generate at hmem
  rw [List.mem_flatMap] at hmem
  obtain ⟨eqPos, -, hmem⟩ := hmem
  split at hmem
  case isTrue =>
    simp only [generateAtEq] at hmem
    rw [List.mem_flatMap] at hmem
    obtain ⟨lhs, -, hacc⟩ := hmem
    unfold acceptLhs at hacc
    split at hacc
    case h_1 => exact absurd hacc (List.not_mem_nil _)
    case h_2 v heq =>
      split_ifs at hacc with h1 h2 h3
      · exact absurd hacc (List.not_mem_nil _)
      · exact absurd hacc (List.not_mem_nil _)
      · rw [List.mem_singleton] at hacc
        subst hacc
        have := List.all_eq_true.mp h3 ec hec
        simpa using this
      · exact absurd hacc (List.not_mem_nil _)
  case isFalse => exact absurd hmem (List.not_mem_nil _)

/-- Witness for C3 (amended) at the Scenario A instance. -/
theorem c3_generate_roundtrip_witness :
    ("1+2=3".toList) ∈ generate 5 ['+'] [("1+2=3".toList)] [("ggggg".toList)] ∧
    matchesFeedback ("1+2=3".toList) ("1+2=3".toList) ("ggggg".toList) = true := by
  have hmem : ("1+2=3".toList) ∈ generate 5 ['+'] [("1+2=3".toList)] [("ggggg".toList)] := by
    rw [generate_scenarioA]
    exact List.mem_singleton.mpr rfl
  refine ⟨hmem, ?_⟩
  exact c3_generate_roundtrip 5 ['+'] [("1+2=3".toList)] [("ggggg".toList)]
    ("1+2=3".toList) hmem (("1+2=3".toList), ("ggggg".toList)) (by decide)

/-! ## Value-level correspondence for the fraction model -/

theorem Frac.toRat_ltb (a b : Frac) (ha : 0 < a.den) (hb : 0 < b.den) :
    Frac.ltb a b = true ↔ a.toRat < b.toRat := by
  unfold Frac.ltb Frac.toRat
  rw [decide_eq_true_eq,
    div_lt_div_iff₀ (by exact_mod_cast ha) (by exact_mod_cast hb)]
  constructor <;> intro h <;> exact_mod_cast h

theorem Frac.toRat_abs (a : Frac) (ha : 0 < a.den) : a.abs.toRat = |a.toRat| := by
  unfold Frac.abs Frac.toRat
  rw [abs_div]
  have h1 : |(a.num : ℚ)| = ((|a.num| : ℤ) : ℚ) := by push_cast; ring
  have h2 : |(a.den : ℚ)| = ((a.den : ℤ) : ℚ) :=
    abs_of_pos (by exact_mod_cast ha)
  rw [h1, h2]

theorem Frac.toRat_ofInt (n : ℤ) : (Frac.ofInt n).toRat = (n : ℚ) := by
  unfold Frac.ofInt Frac.toRat
  norm_num

theorem Frac.toRat_EPSILON : EPSILON.toRat = 1 / 10 ^ 9 := by
  unfold EPSILON Frac.toRat
  norm_num

theorem Frac.round_ofInt (n : ℤ) : (Frac.ofInt n).round = n := by
  unfold Frac.ofInt Frac.round
  dsimp only
  split_ifs with h
  · rw [Int.fdiv_eq_ediv _ (by norm_num)]
    omega
  · rw [Int.fdiv_eq_ediv _ (by norm_num)]
    omega

/-! ## Error behaviour of the evaluator (`evalExpr` / `applyOp`) -/

/-- On a character that is a digit or an allowed operator, the
Shunting-Yard step succeeds. -/
theorem syStep_ok (ops : List Char) (st : SYState) (c : Char)
    (h : c.isDigit = true ∨ ops.contains c = true) :
    ∃ st', syStep ops st c = .ok st' := by
  by_cases hd : c.isDigit
  · refine ⟨{ st with num := st.num ++ [c] }, ?_⟩
    unfold syStep
    rw [if_pos hd]
  · have hc : ops.contains c = true := h.resolve_left (by simpa using hd)
    rcases hpop : popOps ops c (flushNum st).stack (flushNum st).output with ⟨stack', out'⟩
    refine ⟨{ output := out', stack := c :: stack', num := [] }, ?_⟩
    simp only [syStep]
    rw [if_neg (by simpa using hd), if_pos hc, hpop]

/-- A character that is neither a digit nor an allowed operator makes the
Shunting-Yard pass raise an error, wherever it sits. -/
theorem foldlM_syStep_error (ops : List Char) (s : List Char) (c : Char)
    (hc : c ∈ s) (hd : ¬ c.isDigit) (hop : ¬ ops.contains c) :
    ∀ st : SYState, ∃ err, s.foldlM (syStep ops) st = .error err := by
  induction s with
  | nil => cases hc
  | cons a rest ih =>
    intro st
    rw [List.foldlM_cons]
    by_cases ha : a.isDigit = true ∨ ops.contains a = true
    · obtain ⟨st', hst'⟩ := syStep_ok ops st a ha
      rw [hst']
      have hmem : c ∈ rest := by
        rcases List.mem_cons.mp hc with h | h
        · subst h
          rcases ha with h' | h'
          · exact absurd h' hd
          · exact absurd h' hop
        · exact h
      obtain ⟨err, herr⟩ := ih hmem st'
      exact ⟨err, by simpa using herr⟩
    · push_neg at ha
      have hstep : syStep ops st a = .error .invalidChar := by
        unfold syStep
        rw [if_neg (by simpa using ha.1), if_neg (by simpa using ha.2)]
      rw [hstep]
      exact ⟨.invalidChar, rfl⟩

/-- C4.  The evaluator raises an error — and `safeEval` returns no
result — on: a character that is neither a digit nor an allowed operator;
a division by a (near-)zero divisor; a division of integer operands that
are not exactly divisible; a negative exponent; and an exponentiation
whose base exceeds `1e6` in magnitude or whose exponent exceeds `10`.
In particular `evalExpr "8/2"` returns the value 4 while `evalExpr "7/2"`
raises the non-integer-division error. -/
theorem c4_evaluator_errors :
    (∀ (ops : List Char) (s : List Char) (c : Char), c ∈ s → ¬ c.isDigit →
      ¬ ops.contains c → ∃ err, evalExpr ops s = .error err) ∧
    (∀ a b : Frac, 0 < b.den → |b.toRat| < 1 / 10 ^ 9 →
      applyOp a b '/' = .error .divisionByZero) ∧
    (∀ ia ib : ℤ, ib ≠ 0 → ¬ (ib ∣ ia) →
      applyOp (Frac.ofInt ia) (Frac.ofInt ib) '/' = .error .nonIntegerDivision) ∧
    (∀ a b : Frac, 0 < b.den → b.toRat < 0 →
      applyOp a b '^' = .error .negativeExponent) ∧
    (∀ a b : Frac, 0 < a.den → 0 < b.den → 0 ≤ b.toRat →
      (10 ^ 6 < |a.toRat| ∨ 10 < b.toRat) →
      applyOp a b '^' = .error .overflowRisk) ∧
    (evalExpr stdOps ("8/2".toList) = .ok (Frac.ofInt 4) ∧
      (Frac.ofInt 4).toRat = 4) ∧
    (evalExpr stdOps ("7/2".toList) = .error .nonIntegerDivision) ∧
    (∀ (ops s : List Char) (err : EvalErr),
      evalExpr ops s = .error err → safeEval ops s = none) := by
  refine ⟨?_, ?_, ?_, ?_, ?_, ⟨rfl, by norm_num [Frac.toRat_ofInt]⟩, rfl, ?_⟩
  · intro ops s c hc hd hop
    obtain ⟨err, herr⟩ := foldlM_syStep_error ops s c hc hd hop ⟨[], [], []⟩
    refine ⟨err, ?_⟩
    unfold evalExpr
    rw [herr]
    rfl
  · intro a b hbden hb
    have habs : b.abs.ltb EPSILON = true := by
      rw [Frac.toRat_ltb b.abs EPSILON (by simpa [Frac.abs] using hbden) (by norm_num [EPSILON]),
        Frac.toRat_abs b hbden, Frac.toRat_EPSILON]
      exact hb
    unfold applyOp
    simp [habs]
  · intro ia ib hib hndvd
    have hnear : (Frac.ofInt ib).abs.ltb EPSILON = false := by
      have h1 : 1 ≤ |ib| := Int.one_le_abs hib
      unfold Frac.ltb Frac.abs Frac.ofInt EPSILON
      simp only [decide_eq_false_iff_not]
      intro hlt
      norm_num at hlt
      omega
    have hint : ((Frac.ofInt ia).sub (Frac.ofInt (Frac.ofInt ia).round)).abs.ltb EPSILON = true ∧
        ((Frac.ofInt ib).sub (Frac.ofInt (Frac.ofInt ib).round)).abs.ltb EPSILON = true := by
      rw [Frac.round_ofInt, Frac.round_ofInt]
      constructor <;>
      · unfold Frac.ltb Frac.abs Frac.sub Frac.ofInt EPSILON
        simp
    have hmod : (Frac.ofInt ia).round % (Frac.ofInt ib).round ≠ 0 := by
      rw [Frac.round_ofInt, Frac.round_ofInt]
      intro h0
      exact hndvd (Int.dvd_of_emod_eq_zero h0)
    unfold applyOp
    rw [if_neg (by decide), if_neg (by decide), if_neg (by decide), if_pos rfl,
      if_neg (by simp [hnear]), if_pos hint, if_pos hmod]
  · intro a b hbden hb
    have hneg : b.ltb (Frac.ofInt 0) = true := by
      rw [Frac.toRat_ltb b (Frac.ofInt 0) hbden (by norm_num [Frac.ofInt]),
        Frac.toRat_ofInt]
      exact_mod_cast hb
    unfold applyOp
    simp [hneg]
  · intro a b haden hbden hb hover
    have hneg : b.ltb (Frac.ofInt 0) = false := by
      rw [Bool.eq_false_iff]
      intro h
      rw [Frac.toRat_ltb b (Frac.ofInt 0) hbden (by norm_num [Frac.ofInt]),
        Frac.toRat_ofInt] at h
      norm_num at h
      linarith
    have hcond : ((Frac.ofInt 1000000).ltb a.abs = true) ∨ ((Frac.ofInt 10).ltb b = true) := by
      rcases hover with h | h
      · left
        rw [Frac.toRat_ltb (Frac.ofInt 1000000) a.abs (by norm_num [Frac.ofInt])
            (by simpa [Frac.abs] using haden),
          Frac.toRat_ofInt, Frac.toRat_abs a haden]
        norm_num
        linarith
      · right
        rw [Frac.toRat_ltb (Frac.ofInt 10) b (by norm_num [Frac.ofInt]) hbden,
          Frac.toRat_ofInt]
        norm_num
        linarith
    unfold applyOp
    rw [if_neg (by decide), if_neg (by decide), if_neg (by decide), if_neg (by decide),
      if_pos rfl, if_neg (by simp [hneg]), if_pos (by simpa using hcond)]
  · intro ops s err herr
    unfold safeEval
    rw [herr]
    rfl

/-- Witness for C4 at concrete inputs. -/
theorem c4_evaluator_errors_witness :
    (∃ err, evalExpr ['+'] ("1?2".toList) = .error err) ∧
    applyOp (Frac.ofInt 5) (Frac.ofInt 0) '/' = .error .divisionByZero ∧
    applyOp (Frac.ofInt 7) (Frac.ofInt 2) '/' = .error .nonIntegerDivision ∧
    applyOp (Frac.ofInt 2) (Frac.ofInt (-3)) '^' = .error .negativeExponent ∧
    applyOp (Frac.ofInt 2) (Frac.ofInt 11) '^' = .error .overflowRisk ∧
    safeEval stdOps ("7/2".toList) = none := by
  refine ⟨?_, ?_, ?_, ?_, ?_, ?_⟩
  · exact c4_evaluator_errors.1 ['+'] ("1?2".toList) '?' (by decide) (by decide) (by decide)
  · exact c4_evaluator_errors.2.1 (Frac.ofInt 5) (Frac.ofInt 0) (by norm_num [Frac.ofInt])
      (by rw [Frac.toRat_ofInt]; norm_num)
  · exact c4_evaluator_errors.2.2.1 7 2 (by norm_num) (by decide)
  · exact c4_evaluator_errors.2.2.2.1 (Frac.ofInt 2) (Frac.ofInt (-3))
      (by norm_num [Frac.ofInt]) (by rw [Frac.toRat_ofInt]; norm_num)
  · exact c4_evaluator_errors.2.2.2.2.1 (Frac.ofInt 2) (Frac.ofInt 11)
      (by norm_num [Frac.ofInt]) (by norm_num [Frac.ofInt])
      (by rw [Frac.toRat_ofInt]; norm_num)
      (Or.inr (by rw [Frac.toRat_ofInt]; norm_num))
  · exact c4_evaluator_errors.2.2.2.2.2.2.2 stdOps ("7/2".toList) .nonIntegerDivision
      c4_evaluator_errors.2.2.2.2.2.2.1

/-! ## The `'='` entry through the pipeline (C7) -/

theorem updateConstraintPos_greenPos (col : Char) (pos : ℤ) (con : Constraint) :
    (updateConstraintPos col pos con).greenPos =
      if col = 'g' then insertPos con.greenPos pos else con.greenPos := by
  unfold updateConstraintPos
  split_ifs <;> rfl

/-- The constraint-map component of one positional update. -/
theorem posStep_fst (a col : Char) (pos : ℤ) (st : CMap × List Bool) :
    (posStep a col pos st).1 =
      if a.isDigit ∨ opEqChars.contains a then
        modifyC st.1 a (updateConstraintPos col.toLower pos)
      else st.1 := by
  unfold posStep
  split_ifs <;> first | rfl | tauto

/-- What one positional update does to the green positions of `'='`. -/
theorem posStep_eqGreens (a col : Char) (pos : ℤ) (st : CMap × List Bool)
    (con : Constraint) (hfind : findC st.1 '=' = some con) :
    ∃ con', findC (posStep a col pos st).1 '=' = some con' ∧
      con'.greenPos = (if a = '=' ∧ col.toLower = 'g' then insertPos con.greenPos pos
                       else con.greenPos) := by
  rw [posStep_fst]
  by_cases hmod : a.isDigit ∨ opEqChars.contains a
  · rw [if_pos hmod]
    by_cases ha : a = '='
    · subst ha
      refine ⟨_, findC_modifyC_self st.1 '=' _, ?_⟩
      rw [hfind]
      simp only [Option.getD_some]
      rw [updateConstraintPos_greenPos]
      by_cases hg : col.toLower = 'g' <;> simp [hg]
    · refine ⟨con, ?_, ?_⟩
      · rw [findC_modifyC_ne st.1 a '=' _ ha]
        exact hfind
      · rw [if_neg (fun h => ha h.1)]
  · rw [if_neg hmod]
    have ha : a ≠ '=' := fun h => hmod (Or.inr (by rw [h]; decide))
    exact ⟨con, hfind, by rw [if_neg (fun h => ha h.1)]⟩

/-- The positional phase records for `'='` exactly the green positions of
the scanned pairs. -/
theorem posUpdates_eqGreens (l : List (Char × Char)) (pos : ℤ) (st : CMap × List Bool)
    (con : Constraint) (hfind : findC st.1 '=' = some con) :
    ∃ con', findC (posUpdates pos l st).1 '=' = some con' ∧
      con'.greenPos = (eqGreensFrom pos l).foldl insertPos con.greenPos := by
  induction l generalizing pos st con with
  | nil => exact ⟨con, hfind, rfl⟩
  | cons p rest ih =>
    obtain ⟨a, col⟩ := p
    obtain ⟨con₁, h₁, hg₁⟩ := posStep_eqGreens a col pos st con hfind
    obtain ⟨con', h', hg'⟩ := ih (pos + 1) (posStep a col pos st) con₁ h₁
    refine ⟨con', h', ?_⟩
    rw [hg', hg₁]
    simp only [eqGreensFrom]
    by_cases hc : a = '=' ∧ col.toLower = 'g'
    · rw [if_pos hc, if_pos hc, List.singleton_append, List.foldl_cons]
    · rw [if_neg hc, if_neg hc, List.nil_append]

/-- `processSingleGuess` extends the `'='` green positions by the guess's
green `'='` positions and touches nothing else about them. -/
theorem processSingleGuess_eqGreens (e c : List Char) (m : CMap) (flags : List Bool)
    (INF : ℤ) (con : Constraint) (hfind : findC m '=' = some con) :
    ∃ con', findC (processSingleGuess e c (m, flags) INF).1 '=' = some con' ∧
      con'.greenPos = (eqGreensFrom 0 (e.zip c)).foldl insertPos con.greenPos := by
  obtain ⟨con₁, h₁, hg₁⟩ := posUpdates_eqGreens (e.zip c) 0 (m, flags) con hfind
  refine ⟨mergeCounts con₁ (colorCount e c 'g' '=') (colorCount e c 'y' '=')
    (colorCount e c 'r' '=') INF, ?_, ?_⟩
  · unfold processSingleGuess
    refine Eq.trans (findC_map_entries (posUpdates 0 (e.zip c) (m, flags)).1
      (fun a b => mergeCounts b (colorCount e c 'g' a) (colorCount e c 'y' a)
        (colorCount e c 'r' a) INF) '=') ?_
    rw [h₁]
    rfl
  · rw [mergeCounts_greenPos]
    exact hg₁

/-- One guess-loop iteration contributes `recordPairGreens` to the `'='`
green positions. -/
theorem processPair_eqGreens (len : ℤ) (st : CMap × List Bool) (p : List Char × List Char)
    (con : Constraint) (hfind : findC st.1 '=' = some con) :
    ∃ con', findC (processPair len st p).1 '=' = some con' ∧
      con'.greenPos = recordPairGreens len con.greenPos p := by
  obtain ⟨m, flags⟩ := st
  unfold processPair recordPairGreens
  split_ifs with h1 h2
  · exact ⟨con, hfind, rfl⟩
  · exact ⟨con, hfind, rfl⟩
  · exact processSingleGuess_eqGreens p.1 p.2 m flags len con hfind

/-- The whole guess loop records exactly the folded green positions. -/
theorem foldl_processPair_eqGreens (pairs : List (List Char × List Char)) (len : ℤ)
    (st : CMap × List Bool) (con : Constraint) (hfind : findC st.1 '=' = some con) :
    ∃ con', findC (pairs.foldl (processPair len) st).1 '=' = some con' ∧
      con'.greenPos = pairs.foldl (recordPairGreens len) con.greenPos := by
  induction pairs generalizing st con with
  | nil => exact ⟨con, hfind, rfl⟩
  | cons p rest ih =>
    obtain ⟨con₁, h₁, hg₁⟩ := processPair_eqGreens len st p con hfind
    obtain ⟨con', h', hg'⟩ := ih (processPair len st p) con₁ h₁
    refine ⟨con', h', ?_⟩
    rw [hg', hg₁]
    rfl

/-- The structural pass never changes green positions. -/
theorem structuralPass_eqGreens (m : CMap) (flags : List Bool)
    (con : Constraint) (hfind : findC m '=' = some con) :
    ∃ con', findC (structuralPass m flags) '=' = some con' ∧
      con'.greenPos = con.greenPos := by
  unfold structuralPass
  generalize List.range flags.length = l
  induction l generalizing m con with
  | nil => exact ⟨con, hfind, rfl⟩
  | cons pos rest ih =>
    rw [List.foldl_cons]
    by_cases hc : 1 ≤ pos ∧ flags.getD pos false ∧ flags.getD (pos - 1) false
    · rw [if_pos hc]
      obtain ⟨con', h', hg'⟩ := ih
        (m.map (fun e =>
          (e.1, { e.2 with structHasConflict := true,
                           structConflictPositions :=
                             e.2.structConflictPositions ++ [(pos : ℤ) - 1, (pos : ℤ)] })))
        ({ con with structHasConflict := true,
                    structConflictPositions :=
                      con.structConflictPositions ++ [(pos : ℤ) - 1, (pos : ℤ)] })
        (Eq.trans (findC_map_entries m
          (fun a b => { b with structHasConflict := true,
                               structConflictPositions :=
                                 b.structConflictPositions ++ [(pos : ℤ) - 1, (pos : ℤ)] }) '=')
          (by rw [hfind]; rfl))
      exact ⟨con', h', by rw [hg']⟩
    · rw [if_neg hc]
      exact ih m con hfind

/-- The `'='` post-processing forces `minCount = maxCount = 1` and, when
more than one distinct green position had been recorded, clears the green
positions and flags the conflict. -/
theorem eqPostProcess_spec (m : CMap) (con : Constraint)
    (hfind : findC m '=' = some con) :
    ∃ con', findC (eqPostProcess m) '=' = some con' ∧
      con'.minCount = 1 ∧ con'.maxCount = 1 ∧
      (1 < con.greenPos.length → con'.greenPos = [] ∧ con'.hasConflict = true) := by
  unfold eqPostProcess
  rw [hfind]
  dsimp only
  by_cases hlen : 1 < con.greenPos.length
  · rw [if_pos hlen]
    exact ⟨_, findC_modifyC_self m '=' _, rfl, rfl, fun _ => ⟨rfl, rfl⟩⟩
  · rw [if_neg hlen]
    exact ⟨_, findC_modifyC_self m '=' _, rfl, rfl, fun h => absurd h hlen⟩

/-- C7.  For every guess history, the constraint map returned by
`deriveConstraints` has an `'='` entry with `minCount = 1` and
`maxCount = 1`; and whenever more than one distinct green position was
recorded for `'='` across the guesses, that entry's green-position set is
empty and its `hasConflict` flag is true. -/
theorem c7_eq_postprocessing (exprs colors : List (List Char)) (len : ℤ) :
    ∃ con, findC (deriveConstraints exprs colors len) '=' = some con ∧
      con.minCount = 1 ∧ con.maxCount = 1 ∧
      (1 < (recordedEqGreens exprs colors len).length →
        con.greenPos = [] ∧ con.hasConflict = true) := by
  obtain ⟨con₁, h₁, hg₁⟩ := foldl_processPair_eqGreens (exprs.zip colors) len
    (initialConstraintsMap, List.replicate len.toNat false) defaultConstraint (by rfl)
  obtain ⟨con₂, h₂, hg₂⟩ := structuralPass_eqGreens
    ((exprs.zip colors).foldl (processPair len)
      (initialConstraintsMap, List.replicate len.toNat false)).1
    ((exprs.zip colors).foldl (processPair len)
      (initialConstraintsMap, List.replicate len.toNat false)).2
    con₁ h₁
  obtain ⟨con', h', hmin, hmax, himp⟩ := eqPostProcess_spec _ con₂ h₂
  refine ⟨con', h', hmin, hmax, fun hlen => himp ?_⟩
  rw [hg₂, hg₁]
  exact hlen

/-- Witness for C7: two guesses whose green positions disagree on where
`'='` sits produce an `'='` entry with empty green positions and the
conflict flag set (Scenario B). -/
theorem c7_eq_postprocessing_witness :
    1 < (recordedEqGreens [("1+2=3".toList), ("12=45".toList)]
          [("ggggg".toList), ("rrgrr".toList)] 5).length ∧
    ∃ con, findC (deriveConstraints [("1+2=3".toList), ("12=45".toList)]
          [("ggggg".toList), ("rrgrr".toList)] 5) '=' = some con ∧
      con.minCount = 1 ∧ con.maxCount = 1 ∧ con.greenPos = [] ∧
      con.hasConflict = true := by
  have hlen : 1 < (recordedEqGreens [("1+2=3".toList), ("12=45".toList)]
      [("ggggg".toList), ("rrgrr".toList)] 5).length := by decide
  obtain ⟨con, h1, h2, h3, h4⟩ := c7_eq_postprocessing
    [("1+2=3".toList), ("12=45".toList)] [("ggggg".toList), ("rrgrr".toList)] 5
  exact ⟨hlen, con, h1, h2, h3, (h4 hlen).1, (h4 hlen).2⟩

/-! ## Value-level correspondence of the equation check (C10) -/

theorem Frac.abs_den (a : Frac) : a.abs.den = a.den := rfl

theorem Frac.sub_den (a b : Frac) : (a.sub b).den = a.den * b.den := rfl

theorem Frac.toRat_sub (a b : Frac) (ha : 0 < a.den) (hb : 0 < b.den) :
    (a.sub b).toRat = a.toRat - b.toRat := by
  unfold Frac.sub Frac.toRat
  have ha0 : ((a.den : ℚ)) ≠ 0 := by exact_mod_cast ha.ne'
  have hb0 : ((b.den : ℚ)) ≠ 0 := by exact_mod_cast hb.ne'
  push_cast
  field_simp
  ring

theorem rat_div_div (x y z w : ℚ) : x / y / (z / w) = x * w / (y * z) := by
  rw [div_div_eq_mul_div, div_mul_eq_mul_div, div_div]

theorem Frac.toRat_div (a b : Frac) : (a.div b).toRat = a.toRat / b.toRat := by
  unfold Frac.div Frac.toRat
  rw [rat_div_div]
  split_ifs with h
  · push_cast
    rw [neg_div_neg_eq]
  · push_cast
    rfl

theorem Frac.maxF_den_pos (a b : Frac) (ha : 0 < a.den) (hb : 0 < b.den) :
    0 < (a.maxF b).den := by
  unfold Frac.maxF
  split_ifs <;> assumption

theorem Frac.toRat_maxF (a b : Frac) (ha : 0 < a.den) (hb : 0 < b.den) :
    (a.maxF b).toRat = max a.toRat b.toRat := by
  unfold Frac.maxF
  by_cases h : Frac.ltb a b = true
  · rw [if_pos h, max_eq_right ((Frac.toRat_ltb a b ha hb).mp h).le]
  · rw [if_neg h, max_eq_left (not_lt.mp (fun hc => h ((Frac.toRat_ltb a b ha hb).mpr hc)))]

theorem Frac.num_pos_of_toRat_pos (a : Frac) (ha : 0 < a.den) (h : 0 < a.toRat) :
    0 < a.num := by
  unfold Frac.toRat at h
  rcases div_pos_iff.mp h with ⟨h1, _⟩ | ⟨_, h2⟩
  · exact_mod_cast h1
  · exact absurd h2 (not_lt.mpr (by exact_mod_cast ha.le))

/-- A divisor that survives the near-zero test has a nonzero numerator. -/
theorem ltb_EPSILON_num_ne (b : Frac) (hb : 0 < b.den)
    (h : ¬ Frac.ltb b.abs EPSILON = true) : b.num ≠ 0 := by
  intro h0
  apply h
  unfold Frac.ltb Frac.abs EPSILON
  rw [decide_eq_true_eq, h0, abs_zero]
  simpa using hb

/-- Every value `applyOp` produces has a positive denominator when its
operands do. -/
theorem applyOp_den_pos (a b : Frac) (op : Char) (v : Frac)
    (ha : 0 < a.den) (hb : 0 < b.den) (h : applyOp a b op = .ok v) : 0 < v.den := by
  unfold applyOp at h
  split_ifs at h with h1 h2 h3 h4 h5 h6 h7 h8 h9 h10 h11
  all_goals
    first
    | exact Except.noConfusion h
    | (injection h with h
       subst h
       first
       | exact mul_pos ha hb
       | exact Int.one_pos
       | exact pow_pos ha _
       | (have hbn : b.num ≠ 0 := ltb_EPSILON_num_ne b hb (by assumption)
          unfold Frac.div
          split_ifs with hneg
          · have hp := mul_pos ha (neg_pos.mpr hneg)
            rw [mul_neg] at hp
            exact hp
          · exact mul_pos ha (lt_of_le_of_ne (not_lt.mp hneg) (Ne.symm hbn))))

/-- Splitting a successful `Except` bind. -/
theorem except_bind_ok {α β : Type} {x : Except EvalErr α} {f : α → Except EvalErr β}
    {b : β} (h : (x >>= f) = .ok b) : ∃ a, x = .ok a ∧ f a = .ok b := by
  cases x with
  | error e => exact Except.noConfusion (show Except.error e = Except.ok b from h)
  | ok a => exact ⟨a, rfl, show f a = Except.ok b from h⟩

/-- The RPN step keeps every stack denominator positive. -/
theorem rpnStep_den_pos (stack : List Frac) (token : List Char) (stack2 : List Frac)
    (hstack : ∀ v ∈ stack, 0 < v.den) (h : rpnStep stack token = .ok stack2) :
    ∀ v ∈ stack2, 0 < v.den := by
  unfold rpnStep at h
  match token, h with
  | [], h => exact Except.noConfusion h
  | t0 :: trest, h =>
    dsimp only at h
    by_cases hd : t0.isDigit = true
    · rw [if_pos hd] at h
      injection h with h
      subst h
      intro v hv
      rcases List.mem_cons.mp hv with rfl | hv
      · exact Int.one_pos
      · exact hstack v hv
    · rw [if_neg hd] at h
      match stack, hstack, h with
      | b :: a :: rest2, hstack, h =>
        dsimp only at h
        cases happ : applyOp a b t0 with
        | error e =>
          rw [happ] at h
          exact Except.noConfusion (show Except.error e = Except.ok stack2 from h)
        | ok w =>
          rw [happ] at h
          injection h with h
          subst h
          intro v hv
          rcases List.mem_cons.mp hv with rfl | hv
          · exact applyOp_den_pos a b t0 v (hstack a (by simp)) (hstack b (by simp)) happ
          · exact hstack v (by simp [hv])
      | [], hstack, h => exact Except.noConfusion h
      | [b], hstack, h => exact Except.noConfusion h

/-- The whole RPN pass keeps every stack denominator positive. -/
theorem foldlM_rpnStep_den_pos (output : List (List Char)) (stack : List Frac)
    (hstack : ∀ v ∈ stack, 0 < v.den) (final : List Frac)
    (h : output.foldlM rpnStep stack = .ok final) : ∀ v ∈ final, 0 < v.den := by
  induction output generalizing stack with
  | nil =>
    rw [List.foldlM_nil] at h
    injection h with h
    subst h
    exact hstack
  | cons t rest ih =>
    rw [List.foldlM_cons] at h
    obtain ⟨stack1, hstep, h1⟩ := except_bind_ok h
    exact ih stack1 (rpnStep_den_pos stack t stack1 hstack hstep) h1

/-- Every value `evalExpr` returns has a positive denominator, so the
exact-rational readings of the final comparisons are faithful. -/
theorem evalExpr_den_pos (ops : List Char) (s : List Char) (v : Frac)
    (h : evalExpr ops s = .ok v) : 0 < v.den := by
  unfold evalExpr at h
  obtain ⟨st, hst, h⟩ := except_bind_ok h
  obtain ⟨final, hfin, h⟩ := except_bind_ok h
  have hden := foldlM_rpnStep_den_pos _ [] (by intro w hw; cases hw) final hfin
  match final, h, hden with
  | [w], h, hden =>
    have hwv : Except.ok w = Except.ok v := h
    rw [Except.ok.injEq] at hwv
    subst hwv
    exact hden w (by simp)
  | [], h, hden => exact Except.noConfusion (show Except.error EvalErr.malformedRPN = Except.ok v from h)
  | w1 :: w2 :: t, h, hden => exact Except.noConfusion (show Except.error EvalErr.malformedRPN = Except.ok v from h)

/-- Floor of an integer quotient with positive divisor. -/
theorem floor_intCast_div_pos (m k : ℤ) (hk : 0 < k) :
    ⌊(m : ℚ) / (k : ℚ)⌋ = m / k := by
  have hcast : ((k.toNat : ℕ) : ℚ) = (k : ℚ) := by
    exact_mod_cast congrArg (fun z : ℤ => (z : ℚ)) (Int.toNat_of_nonneg hk.le)
  have h := Rat.floor_intCast_div_natCast m k.toNat
  rw [hcast] at h
  rw [h, Int.toNat_of_nonneg hk.le]

/-- The `fdiv` formula of `Frac.round` computes rounding half away from
zero of a nonnegative-or-any quotient with positive denominator. -/
theorem round_formula (n d : ℤ) (hd : 0 < d) :
    (2 * n + d).fdiv (2 * d) = round ((n : ℚ) / (d : ℚ)) := by
  have hd0 : (d : ℚ) ≠ 0 := by exact_mod_cast hd.ne'
  rw [round_eq, Int.fdiv_eq_ediv _ (by positivity),
    show (n : ℚ) / (d : ℚ) + 1 / 2 = ((2 * n + d : ℤ) : ℚ) / ((2 * d : ℤ) : ℚ) by
      push_cast
      field_simp
      ring,
    floor_intCast_div_pos _ _ (by positivity)]

/-- `Frac.round` computes the C++ `std::round` of the fraction's value. -/
theorem Frac.round_eq_cppRound (a : Frac) (ha : 0 < a.den) :
    a.round = cppRound a.toRat := by
  unfold Frac.round cppRound Frac.toRat
  have hd : (0 : ℚ) < (a.den : ℚ) := by exact_mod_cast ha
  by_cases hn : 0 ≤ a.num
  · rw [if_pos hn, if_pos (div_nonneg (by exact_mod_cast hn) hd.le),
      round_formula a.num a.den ha]
  · rw [if_neg hn,
      if_neg (not_le.mpr (div_neg_of_neg_of_pos (by exact_mod_cast not_le.mp hn) hd)),
      round_formula (-a.num) a.den ha]
    congr 2
    push_cast
    rw [neg_div]

/-- The integrality test of the code reads, on the value level, as
"within `1e-9` of the nearest integer". -/
theorem isInteger_iff (v : Frac) (hv : 0 < v.den) :
    isInteger v = true ↔ |v.toRat - (cppRound v.toRat : ℚ)| < 1 / 10 ^ 9 := by
  unfold isInteger
  rw [Frac.toRat_ltb _ _ (by simpa [Frac.abs_den, Frac.sub_den, Frac.ofInt] using hv)
      (by norm_num [EPSILON]),
    Frac.toRat_abs _ (by simpa [Frac.sub_den, Frac.ofInt] using hv),
    Frac.toRat_sub _ _ hv (by norm_num [Frac.ofInt]),
    Frac.toRat_ofInt, Frac.round_eq_cppRound v hv, Frac.toRat_EPSILON]

/-- The final comparison of the code reads, on the value level, as
"relative difference below `1e-9`". -/
theorem relcmp_iff (lv rv : Frac) (hl : 0 < lv.den) (hr : 0 < rv.den) :
    ((lv.sub rv).abs.div ((Frac.ofInt 1).maxF (lv.abs.maxF rv.abs))).ltb EPSILON = true ↔
      |lv.toRat - rv.toRat| / max 1 (max |lv.toRat| |rv.toRat|) < 1 / 10 ^ 9 := by
  have hXden : 0 < (lv.abs.maxF rv.abs).den :=
    Frac.maxF_den_pos _ _ (by rw [Frac.abs_den]; exact hl) (by rw [Frac.abs_den]; exact hr)
  have hMden : 0 < ((Frac.ofInt 1).maxF (lv.abs.maxF rv.abs)).den :=
    Frac.maxF_den_pos _ _ (by norm_num [Frac.ofInt]) hXden
  have hMrat : ((Frac.ofInt 1).maxF (lv.abs.maxF rv.abs)).toRat =
      max 1 (max |lv.toRat| |rv.toRat|) := by
    rw [Frac.toRat_maxF _ _ (by norm_num [Frac.ofInt]) hXden,
      Frac.toRat_maxF _ _ (by rw [Frac.abs_den]; exact hl) (by rw [Frac.abs_den]; exact hr),
      Frac.toRat_ofInt, Frac.toRat_abs _ hl, Frac.toRat_abs _ hr]
    norm_num
  have hMpos : 0 < ((Frac.ofInt 1).maxF (lv.abs.maxF rv.abs)).num := by
    apply Frac.num_pos_of_toRat_pos _ hMden
    rw [hMrat]
    exact lt_of_lt_of_le one_pos (le_max_left _ _)
  have hAden : 0 < ((lv.sub rv).abs).den := by
    rw [Frac.abs_den, Frac.sub_den]
    exact mul_pos hl hr
  have hdivden : 0 < ((lv.sub rv).abs.div ((Frac.ofInt 1).maxF (lv.abs.maxF rv.abs))).den := by
    unfold Frac.div
    rw [if_neg (not_lt.mpr hMpos.le)]
    exact mul_pos hAden hMpos
  rw [Frac.toRat_ltb _ _ hdivden (by norm_num [EPSILON]), Frac.toRat_div,
    Frac.toRat_abs _ (by rw [Frac.sub_den]; exact mul_pos hl hr),
    Frac.toRat_sub _ _ hl hr, hMrat, Frac.toRat_EPSILON]

/-- `eqSplit` finds the first `'='`. -/
theorem eqSplit_append (lhs rhs : List Char) (h : '=' ∉ lhs) :
    eqSplit (lhs ++ '=' :: rhs) = some (lhs, rhs) := by
  induction lhs with
  | nil => rfl
  | cons c l ih =>
    have hc : c ≠ '=' := by
      intro hcc
      subst hcc
      exact h (List.mem_cons_self _ _)
    rw [List.cons_append]
    unfold eqSplit
    rw [if_neg hc, ih (fun hm => h (List.mem_cons_of_mem _ hm))]
    rfl

/-- A successful `eqSplit` is a first-`'='` decomposition. -/
theorem eqSplit_some (s lhs rhs : List Char) (h : eqSplit s = some (lhs, rhs)) :
    s = lhs ++ '=' :: rhs ∧ '=' ∉ lhs := by
  induction s generalizing lhs rhs with
  | nil => exact Option.noConfusion h
  | cons c rest ih =>
    unfold eqSplit at h
    by_cases hc : c = '='
    · rw [if_pos hc] at h
      simp only [Option.some.injEq, Prod.mk.injEq] at h
      obtain ⟨rfl, rfl⟩ := h
      subst hc
      exact ⟨rfl, by simp⟩
    · rw [if_neg hc] at h
      cases hsp : eqSplit rest with
      | none =>
        rw [hsp] at h
        exact Option.noConfusion h
      | some p =>
        obtain ⟨l1, r1⟩ := p
        rw [hsp] at h
        simp only [Option.map_some', Option.some.injEq, Prod.mk.injEq] at h
        obtain ⟨h1, rfl⟩ := h
        obtain ⟨hs, hmem⟩ := ih l1 r1 hsp
        subst hs
        refine ⟨by rw [← h1]; rfl, ?_⟩
        rw [← h1]
        intro hm
        rcases List.mem_cons.mp hm with h2 | h2
        · exact hc h2.symm
        · exact hmem h2

/-- C10.  `isValidExpression(s, n)` returns `true` exactly when `s` has
`n` characters, contains exactly one `'='` with non-empty substrings on
both sides, both sides evaluate without error (the exact-fraction values
are always finite), both values are integers within tolerance `1e-9`,
and the two values are equal within relative tolerance `1e-9`.  The check
is a total Boolean function: every evaluation error is absorbed into the
`false` branch and never propagates. -/
theorem c10_validity_characterization (ops : List Char) (s : List Char) (n : ℕ) :
    isValidExpression ops s n = true ↔
      (s.length = n ∧ s.count '=' = 1 ∧
       ∃ lhs rhs, s = lhs ++ '=' :: rhs ∧ lhs ≠ [] ∧ rhs ≠ [] ∧
       ∃ lv rv : Frac, evalExpr ops lhs = .ok lv ∧ evalExpr ops rhs = .ok rv ∧
         |lv.toRat - (cppRound lv.toRat : ℚ)| < 1 / 10 ^ 9 ∧
         |rv.toRat - (cppRound rv.toRat : ℚ)| < 1 / 10 ^ 9 ∧
         |lv.toRat - rv.toRat| / max 1 (max |lv.toRat| |rv.toRat|) < 1 / 10 ^ 9) := by
  constructor
  · intro h
    unfold isValidExpression at h
    by_cases hlen : s.length ≠ n
    · rw [if_pos hlen] at h
      exact Bool.noConfusion h
    · rw [if_neg hlen] at h
      push_neg at hlen
      cases hsp : eqSplit s with
      | none =>
        rw [hsp] at h
        exact Bool.noConfusion h
      | some p =>
        obtain ⟨lhs, rhs⟩ := p
        rw [hsp] at h
        dsimp only at h
        by_cases hcont : rhs.contains '=' = true
        · rw [if_pos hcont] at h
          exact Bool.noConfusion h
        · rw [if_neg hcont] at h
          by_cases hemp : lhs = [] ∨ rhs = []
          · rw [if_pos hemp] at h
            exact Bool.noConfusion h
          · rw [if_neg hemp] at h
            push_neg at hemp
            obtain ⟨hlne, hrne⟩ := hemp
            cases hl : evalExpr ops lhs with
            | error e =>
              rw [hl] at h
              cases hr : evalExpr ops rhs <;> rw [hr] at h <;> exact Bool.noConfusion h
            | ok lv =>
              rw [hl] at h
              cases hr : evalExpr ops rhs with
              | error e =>
                rw [hr] at h
                exact Bool.noConfusion h
              | ok rv =>
                rw [hr] at h
                dsimp only at h
                by_cases hint : isInteger lv = true ∧ isInteger rv = true
                · rw [if_neg (not_not_intro hint)] at h
                  by_cases hrel : ((lv.sub rv).abs.div
                      ((Frac.ofInt 1).maxF (lv.abs.maxF rv.abs))).ltb EPSILON = true
                  · obtain ⟨hsdecomp, hnlhs⟩ := eqSplit_some s lhs rhs hsp
                    have hnrhs : '=' ∉ rhs := by simpa using hcont
                    have hden_l := evalExpr_den_pos ops lhs lv hl
                    have hden_r := evalExpr_den_pos ops rhs rv hr
                    refine ⟨hlen, ?_, lhs, rhs, hsdecomp, hlne, hrne, lv, rv, hl, hr,
                      (isInteger_iff lv hden_l).mp hint.1,
                      (isInteger_iff rv hden_r).mp hint.2,
                      (relcmp_iff lv rv hden_l hden_r).mp hrel⟩
                    rw [hsdecomp]
                    simp [List.count_append, List.count_cons_self,
                      List.count_eq_zero.mpr hnlhs, List.count_eq_zero.mpr hnrhs]
                  · rw [if_neg hrel] at h
                    exact Bool.noConfusion h
                · rw [if_pos hint] at h
                  exact Bool.noConfusion h
  · rintro ⟨hlen, hcount, lhs, rhs, rfl, hlne, hrne, lv, rv, hl, hr, hil, hir, hrel⟩
    have hc2 : lhs.count '=' = 0 ∧ rhs.count '=' = 0 := by
      rw [List.count_append, List.count_cons_self] at hcount
      omega
    have hnlhs : '=' ∉ lhs := List.count_eq_zero.mp hc2.1
    have hnrhs : '=' ∉ rhs := List.count_eq_zero.mp hc2.2
    have hden_l := evalExpr_den_pos ops lhs lv hl
    have hden_r := evalExpr_den_pos ops rhs rv hr
    unfold isValidExpression
    rw [if_neg (not_not_intro hlen), eqSplit_append lhs rhs hnlhs]
    dsimp only
    rw [if_neg (by simpa using hnrhs), if_neg (by simp [hlne, hrne]), hl, hr]
    dsimp only
    rw [if_neg (not_not_intro ⟨(isInteger_iff lv hden_l).mpr hil,
        (isInteger_iff rv hden_r).mpr hir⟩),
      if_pos ((relcmp_iff lv rv hden_l hden_r).mpr hrel)]

/-- Witness for C10 at the concrete valid equation `"8/2=4"`. -/
theorem c10_validity_characterization_witness :
    isValidExpression stdOps ("8/2=4".toList) 5 = true ∧
    ∃ lhs rhs, ("8/2=4".toList) = lhs ++ '=' :: rhs ∧ lhs ≠ [] ∧ rhs ≠ [] ∧
      ∃ lv rv : Frac, evalExpr stdOps lhs = .ok lv ∧ evalExpr stdOps rhs = .ok rv ∧
        |lv.toRat - (cppRound lv.toRat : ℚ)| < 1 / 10 ^ 9 ∧
        |rv.toRat - (cppRound rv.toRat : ℚ)| < 1 / 10 ^ 9 ∧
        |lv.toRat - rv.toRat| / max 1 (max |lv.toRat| |rv.toRat|) < 1 / 10 ^ 9 := by
  have h : isValidExpression stdOps ("8/2=4".toList) 5 = true := by decide
  exact ⟨h, ((c10_validity_characterization stdOps ("8/2=4".toList) 5).mp h).2.2⟩
